import Mathlib

/-!
Verification development for the Maven dependency-upgrade pipeline
(`scripts/upgrade.py` and `src/analysis/dependency.py`).

Documents are modelled as `List Char`.  The three Python regular
expressions used by `PomUpdater` (the property pattern, the dependency
block pattern and the parent block pattern) are deterministic: every
quantifier in them (`\s*`, `[^<]+`) is a greedy character-class run whose
follow set is disjoint from the class, so backtracking can never produce a
different result.  They are therefore modelled as deterministic scanners
(`matchProp`, `matchDep`, `matchParent`), and Python's `re.subn` — which
replaces every non-overlapping occurrence scanning left to right — is
modelled by the fuel-indexed scanner `subnF`.  The replacement template
is modelled literally (a recommended version containing backslash escapes
is outside the modelled domain).  `str.strip`/`str.lower` are modelled on
ASCII text.

XML is modelled after `xml.etree.ElementTree` parsing: an element tree
with tag, optional text and children; the pipeline functions
(`_extract_properties`, `_parse_dependency_element`, `_resolve_version`,
`parse_pom_with_properties`) are translated over that tree.  MCP response
entries are modelled as string-valued dictionaries plus an optional
fallback slot that is either a (string-valued) dictionary or a non-dict
value, matching the fields the code reads.
-/

namespace MavenUpgrade

/-- Python ASCII whitespace, the characters matched by `\s` and stripped
by `str.strip` on ASCII text. -/
def pySpace (c : Char) : Bool :=
  c == ' ' || c == '\t' || c == '\n' || c == '\r' || c == '\x0b' || c == '\x0c'

/-- Python `str.strip()` on ASCII text. -/
def pyStrip (s : List Char) : List Char :=
  ((s.dropWhile pySpace).reverse.dropWhile pySpace).reverse

/-- Python `str.lower()` on ASCII text. -/
def pyLower (s : List Char) : List Char := s.map Char.toLower

/-- Drop a literal leading pattern: `stripLead pat s = some r` iff
`s = pat ++ r`. -/
def stripLead : List Char → List Char → Option (List Char)
  | [], s => some s
  | _ :: _, [] => none
  | p :: ps, c :: cs => if p = c then stripLead ps cs else none

/-- Boolean test that `pat` is a leading literal of `s`. -/
def leadsWith (pat s : List Char) : Bool := (stripLead pat s).isSome

/-- Boolean test that `pat` is a trailing literal of `s`
(Python `str.endswith`). -/
def trailsWith (pat s : List Char) : Bool := leadsWith pat.reverse s.reverse

/-- Boolean test that `pat` occurs as a contiguous substring of `s`. -/
def occursIn (pat : List Char) : List Char → Bool
  | [] => leadsWith pat []
  | c :: rest => leadsWith pat (c :: rest) || occursIn pat rest

/-- Python `str.split(sep)` for a single-character separator: empty
fields are kept and the result is always non-empty. -/
def splitOnChar (sep : Char) : List Char → List (List Char)
  | [] => [[]]
  | c :: rest =>
    let r := splitOnChar sep rest
    if c = sep then [] :: r
    else (c :: r.headD []) :: r.tail

/-- The literal text `<p>` of an opening XML tag. -/
def openTag (p : List Char) : List Char := '<' :: (p ++ ['>'])

/-- The literal text `</p>` of a closing XML tag. -/
def closeTag (p : List Char) : List Char := '<' :: '/' :: (p ++ ['>'])

/-- One match attempt of the property pattern
`(<prop>)([^<]+)(</prop>)` (from `PomUpdater._update_property_by_name`)
at the start of `s`.  On success returns the group-1 text, the group-2
value text and the remainder after the whole match. -/
def matchProp (p : List Char) (s : List Char) :
    Option (List Char × List Char × List Char) :=
  match stripLead (openTag p) s with
  | none => none
  | some s1 =>
    let t := s1.takeWhile (fun c => c ≠ '<')
    let s2 := s1.dropWhile (fun c => c ≠ '<')
    if t = [] then none
    else
      match stripLead (closeTag p) s2 with
      | none => none
      | some s3 => some (openTag p, t, s3)

/-- One match attempt of the dependency-block pattern of
`PomUpdater.update_version`
(`(<dependency>\s*<groupId>G</groupId>\s*<artifactId>A</artifactId>\s*<version>)([^<]+)(</version>)`)
at the start of `s`. -/
def matchDep (g a : List Char) (s : List Char) :
    Option (List Char × List Char × List Char) :=
  match stripLead ("<dependency>".toList) s with
  | none => none
  | some s1 =>
    let w1 := s1.takeWhile pySpace
    let s2 := s1.dropWhile pySpace
    match stripLead ("<groupId>".toList ++ g ++ "</groupId>".toList) s2 with
    | none => none
    | some s3 =>
      let w2 := s3.takeWhile pySpace
      let s4 := s3.dropWhile pySpace
      match stripLead ("<artifactId>".toList ++ a ++ "</artifactId>".toList) s4 with
      | none => none
      | some s5 =>
        let w3 := s5.takeWhile pySpace
        let s6 := s5.dropWhile pySpace
        match stripLead ("<version>".toList) s6 with
        | none => none
        | some s7 =>
          let t := s7.takeWhile (fun c => c ≠ '<')
          let s8 := s7.dropWhile (fun c => c ≠ '<')
          if t = [] then none
          else
            match stripLead ("</version>".toList) s8 with
            | none => none
            | some s9 =>
              some ("<dependency>".toList ++ w1
                  ++ "<groupId>".toList ++ g ++ "</groupId>".toList ++ w2
                  ++ "<artifactId>".toList ++ a ++ "</artifactId>".toList ++ w3
                  ++ "<version>".toList, t, s9)

/-- One match attempt of the parent-block pattern of
`PomUpdater.update_parent_version`
(`(<parent>\s*<groupId>[^<]+</groupId>\s*<artifactId>[^<]+</artifactId>\s*<version>)([^<]+)(</version>)`)
at the start of `s`. -/
def matchParent (s : List Char) :
    Option (List Char × List Char × List Char) :=
  match stripLead ("<parent>".toList) s with
  | none => none
  | some s1 =>
    let w1 := s1.takeWhile pySpace
    let s2 := s1.dropWhile pySpace
    match stripLead ("<groupId>".toList) s2 with
    | none => none
    | some s3 =>
      let gt := s3.takeWhile (fun c => c ≠ '<')
      let s4 := s3.dropWhile (fun c => c ≠ '<')
      if gt = [] then none
      else
        match stripLead ("</groupId>".toList) s4 with
        | none => none
        | some s5 =>
          let w2 := s5.takeWhile pySpace
          let s6 := s5.dropWhile pySpace
          match stripLead ("<artifactId>".toList) s6 with
          | none => none
          | some s7 =>
            let at' := s7.takeWhile (fun c => c ≠ '<')
            let s8 := s7.dropWhile (fun c => c ≠ '<')
            if at' = [] then none
            else
              match stripLead ("</artifactId>".toList) s8 with
              | none => none
              | some s9 =>
                let w3 := s9.takeWhile pySpace
                let s10 := s9.dropWhile pySpace
                match stripLead ("<version>".toList) s10 with
                | none => none
                | some s11 =>
                  let t := s11.takeWhile (fun c => c ≠ '<')
                  let s12 := s11.dropWhile (fun c => c ≠ '<')
                  if t = [] then none
                  else
                    match stripLead ("</version>".toList) s12 with
                    | none => none
                    | some s13 =>
                      some ("<parent>".toList ++ w1
                          ++ "<groupId>".toList ++ gt ++ "</groupId>".toList ++ w2
                          ++ "<artifactId>".toList ++ at' ++ "</artifactId>".toList ++ w3
                          ++ "<version>".toList, t, s13)

/-- Python `re.subn` for a pattern whose single match attempt is `m`:
scan left to right, replace every non-overlapping match by
group 1 ++ `v` ++ `close`, and count the replacements.  The fuel bounds
the number of scan steps; `s.length` steps always suffice because every
step consumes at least one character. -/
def subnF (m : List Char → Option (List Char × List Char × List Char))
    (close v : List Char) : Nat → List Char → List Char × Nat
  | _, [] => ([], 0)
  | 0, s => (s, 0)
  | fuel + 1, c :: s =>
    match m (c :: s) with
    | some (g1, _, rest) =>
      let r := subnF m close v fuel rest
      (g1 ++ v ++ close ++ r.1, r.2 + 1)
    | none =>
      let r := subnF m close v fuel s
      (c :: r.1, r.2)

/-- The list of matches found by the left-to-right scan of `subnF`:
each entry is (gap before the match, group-1 text, group-2 text), and the
second component is the text after the last match. -/
def matchListF (m : List Char → Option (List Char × List Char × List Char)) :
    Nat → List Char → List (List Char × List Char × List Char) × List Char
  | _, [] => ([], [])
  | 0, s => ([], s)
  | fuel + 1, c :: s =>
    match m (c :: s) with
    | some (g1, t, rest) =>
      let r := matchListF m fuel rest
      (([], g1, t) :: r.1, r.2)
    | none =>
      let r := matchListF m fuel s
      match r.1 with
      | [] => ([], c :: r.2)
      | (gap, g1, t) :: cs => ((c :: gap, g1, t) :: cs, r.2)

/-- Reassemble the original document from a match decomposition. -/
def renderOrig (close : List Char) :
    List (List Char × List Char × List Char) → List Char → List Char
  | [], tail => tail
  | (gap, g1, t) :: cs, tail => gap ++ g1 ++ t ++ close ++ renderOrig close cs tail

/-- Reassemble the document after every matched group-2 text has been
replaced by `v`. -/
def renderNew (close v : List Char) :
    List (List Char × List Char × List Char) → List Char → List Char
  | [], tail => tail
  | (gap, g1, _) :: cs, tail => gap ++ g1 ++ v ++ close ++ renderNew close v cs tail

/-- `re.subn` of the property pattern over the whole document
(the body of `PomUpdater._update_property_by_name`). -/
def subn_prop (p v s : List Char) : List Char × Nat :=
  subnF (matchProp p) (closeTag p) v s.length s

/-- `re.subn` of the dependency-block pattern over the whole document. -/
def subn_dep (g a v s : List Char) : List Char × Nat :=
  subnF (matchDep g a) ("</version>".toList) v s.length s

/-- `re.subn` of the parent-block pattern over the whole document. -/
def subn_parent (v s : List Char) : List Char × Nat :=
  subnF matchParent ("</version>".toList) v s.length s

/-- `PomUpdater._update_property_by_name`: replace the value of property
`p` everywhere, report whether anything matched, and keep the document
unchanged otherwise. -/
def update_property_by_name (p v s : List Char) : Bool × List Char :=
  let r := subn_prop p v s
  if r.2 > 0 then (true, r.1) else (false, s)

/-- `regex.search` of the dependency-block pattern: the first match of
the scan, if any. -/
def searchDep (g a : List Char) :
    List Char → Option (List Char × List Char × List Char)
  | [] => none
  | c :: s =>
    match matchDep g a (c :: s) with
    | some r => some r
    | none => searchDep g a s

/-- `re.fullmatch(r"\$\{([^}]+)\}", s)`: `s` is exactly a property
placeholder and the result is the property name between the braces. -/
def parsePlaceholder : List Char → Option (List Char)
  | c1 :: c2 :: rest =>
    if c1 = '$' ∧ c2 = '\x7b' then
      match rest.getLast? with
      | some c3 =>
        if c3 = '\x7d' then
          let inner := rest.dropLast
          if inner ≠ [] ∧ '\x7d' ∉ inner then some inner else none
        else none
      | none => none
    else none
  | _ => none

/-- `group_id.split('.')[-1]`. -/
def lastDotSegment (g : List Char) : List Char := (splitOnChar '.' g).getLastD []

/-- The heuristic property names tried by `PomUpdater.update_version`:
`<artifact>.version`, `<lastGroupSegment>.version`, `<artifact>-version`. -/
def heuristicPropertyNames (g a : List Char) : List (List Char) :=
  [a ++ ".version".toList, lastDotSegment g ++ ".version".toList,
   a ++ "-version".toList]

/-- The property-name loop at the end of `PomUpdater.update_version`. -/
def tryPropertyNames (v s : List Char) : List (List Char) → Bool × List Char
  | [] => (false, s)
  | n :: rest =>
    let r := update_property_by_name n v s
    if r.1 then r else tryPropertyNames v s rest

/-- `PomUpdater.update_version`: locate the dependency block; if its
version text is a property placeholder redirect to the property update;
otherwise replace inside the block; otherwise try the heuristic property
names.  Returns the success flag and the new document text. -/
def update_version (g a v s : List Char) : Bool × List Char :=
  match searchDep g a s with
  | some (_, t, _) =>
    match parsePlaceholder (pyStrip t) with
    | some p => update_property_by_name p v s
    | none =>
      let r := subn_dep g a v s
      if r.2 > 0 then (true, r.1)
      else tryPropertyNames v s (heuristicPropertyNames g a)
  | none => tryPropertyNames v s (heuristicPropertyNames g a)

/-- `PomUpdater.update_parent_version`. -/
def update_parent_version (v s : List Char) : Bool × List Char :=
  let r := subn_parent v s
  if r.2 > 0 then (true, r.1) else (false, s)

/-- `PomUpdater.has_changes`: value comparison of the accumulated text
with the original text. -/
def has_changes (original content : List Char) : Bool :=
  content != original

mutual
/-- An XML element as produced by `xml.etree.ElementTree` after the
namespace-cleaning step: tag, optional text, ordered children. -/
inductive XmlElem : Type where
  | mk (tag : List Char) (text : Option (List Char)) (children : XmlForest)

/-- The ordered children of an element. -/
inductive XmlForest : Type where
  | nil
  | cons (e : XmlElem) (rest : XmlForest)
end

def XmlElem.tag : XmlElem → List Char
  | .mk t _ _ => t

def XmlElem.text : XmlElem → Option (List Char)
  | .mk _ tx _ => tx

def XmlElem.children : XmlElem → XmlForest
  | .mk _ _ ch => ch

mutual
/-- Document-order (preorder) listing of an element and its subtree. -/
def preorderE : XmlElem → List XmlElem
  | .mk t tx ch => .mk t tx ch :: preorderL ch

/-- Document-order listing of all elements of a forest. -/
def preorderL : XmlForest → List XmlElem
  | .nil => []
  | .cons e rest => preorderE e ++ preorderL rest
end

def forestToList : XmlForest → List XmlElem
  | .nil => []
  | .cons e rest => e :: forestToList rest

/-- `element.find(tag)` of ElementTree: the first direct child with the
given tag. -/
def childFind (tag : List Char) (e : XmlElem) : Option XmlElem :=
  (forestToList e.children).find? (fun c => c.tag == tag)

/-- `tag.split("}")[-1] if "}" in tag else tag`
(from `_extract_properties`). -/
def tagLocal (t : List Char) : List Char :=
  if '\x7d' ∈ t then (splitOnChar '\x7d' t).getLastD [] else t

/-- Python dict assignment `d[k] = v`: overwrite in place if the key is
present, append otherwise. -/
def dictInsert (k v : List Char) (d : List (List Char × List Char)) :
    List (List Char × List Char) :=
  if d.any (fun kv => kv.1 == k) then
    d.map (fun kv => if kv.1 == k then (k, v) else kv)
  else d ++ [(k, v)]

/-- Python `d.get(k)`. -/
def dictGet (d : List (List Char × List Char)) (k : List Char) :
    Option (List Char) :=
  (d.find? (fun kv => kv.1 == k)).map (fun kv => kv.2)

/-- The property-collecting loop body of `_extract_properties` over the
children of the properties block. -/
def buildProps (children : List XmlElem) : List (List Char × List Char) :=
  children.foldl (fun acc prop =>
    match prop.text with
    | some tx => if tx ≠ [] then dictInsert (tagLocal prop.tag) (pyStrip tx) acc else acc
    | none => acc) []

/-- `_extract_properties`: build the property table from the first
`.//properties` descendant (document order); empty table if there is
none. -/
def extract_properties (root : XmlElem) : List (List Char × List Char) :=
  match (preorderL root.children).find? (fun e => e.tag == "properties".toList) with
  | none => []
  | some pe => buildProps (forestToList pe.children)

/-- A parsed dependency with resolved version
(`ParsedDependency` in `src/analysis/dependency.py`). -/
structure ParsedDependency where
  group_id : List Char
  artifact_id : List Char
  version : List Char
  source : List Char
deriving DecidableEq

/-- `e.text.strip() if e.text else ""` for group/artifact id elements. -/
def elemIdText (e : XmlElem) : List Char :=
  match e.text with
  | some tx => if tx ≠ [] then pyStrip tx else []
  | none => []

/-- `_extract_parent_dependency`: the parent block as a
`ParsedDependency`, requiring group, artifact and version all present
with non-empty text. -/
def extract_parent_dependency (root : XmlElem) : Option ParsedDependency :=
  match childFind ("parent".toList) root with
  | none => none
  | some parent =>
    match childFind ("groupId".toList) parent, childFind ("artifactId".toList) parent,
          childFind ("version".toList) parent with
    | some gE, some aE, some vE =>
      match gE.text, aE.text, vE.text with
      | some gt, some at', some vt =>
        if gt ≠ [] ∧ at' ≠ [] ∧ vt ≠ [] then
          some ⟨pyStrip gt, pyStrip at', pyStrip vt, "parent".toList⟩
        else none
      | _, _, _ => none
    | _, _, _ => none

/-- `_resolve_version`: a version that is not of the placeholder shape is
returned unchanged; a placeholder is looked up in the property table and
resolves only to a truthy (non-empty) value. -/
def resolve_version (version : List Char) (props : List (List Char × List Char)) :
    Option (List Char) :=
  if !(leadsWith ("$\x7b".toList) version && trailsWith ("\x7d".toList) version) then
    some version
  else
    match dictGet props ((version.drop 2).dropLast) with
    | some w => if w ≠ [] then some w else none
    | none => none

/-- `_parse_dependency_element`: group and artifact children must exist,
the version child must exist with truthy text, and the (stripped,
resolved) version must be truthy. -/
def parse_dependency_element (props : List (List Char × List Char)) (dep : XmlElem) :
    Option ParsedDependency :=
  match childFind ("groupId".toList) dep, childFind ("artifactId".toList) dep with
  | some gE, some aE =>
    let gid := elemIdText gE
    let aid := elemIdText aE
    match childFind ("version".toList) dep with
    | none => none
    | some vE =>
      match vE.text with
      | none => none
      | some vt =>
        if vt = [] then none
        else
          match resolve_version (pyStrip vt) props with
          | none => none
          | some ver =>
            if ver ≠ [] then some ⟨gid, aid, ver, "dependency".toList⟩ else none
  | _, _ => none

/-- `root.findall(".//dependencies/dependency")`: for every descendant
tagged `dependencies` (document order), its direct children tagged
`dependency`. -/
def findAllDepElems (root : XmlElem) : List XmlElem :=
  ((preorderL root.children).filter (fun e => e.tag == "dependencies".toList)).flatMap
    (fun ds => (forestToList ds.children).filter (fun c => c.tag == "dependency".toList))

/-- `DependencyAnalyzer.parse_pom_with_properties` after the XML text has
been parsed into a tree: parent entry first, then the dependency entries
in document order, each resolved over the property table. -/
def parse_pom_with_properties (root : XmlElem) : List ParsedDependency :=
  let props := extract_properties root
  (match extract_parent_dependency root with
   | some d => [d]
   | none => []) ++ (findAllDepElems root).filterMap (parse_dependency_element props)

/-- `DependencyUpdate` in `src/analysis/dependency.py`. -/
structure DependencyUpdate where
  group_id : List Char
  artifact_id : List Char
  current_version : List Char
  latest_version : List Char
  update_type : List Char
deriving DecidableEq

/-- `DependencyUpdate.coordinate`. -/
def DependencyUpdate.coordinate (u : DependencyUpdate) : List Char :=
  u.group_id ++ ':' :: u.artifact_id

/-- `_filter_updates_by_mode`: in `minor_patch` mode split into the
minor/patch list and the major list; in any other mode everything goes to
the second list. -/
def filter_updates_by_mode (updates : List DependencyUpdate) (mode : List Char) :
    List DependencyUpdate × List DependencyUpdate :=
  if mode = "minor_patch".toList then
    (updates.filter (fun u => u.update_type == "minor".toList || u.update_type == "patch".toList),
     updates.filter (fun u => u.update_type == "major".toList))
  else ([], updates)

/-- The `(coordinate, latest_version)` key used by the fallback merge in
`run_upgrade`. -/
def updatePair (u : DependencyUpdate) : List Char × List Char :=
  (u.coordinate, u.latest_version)

/-- The fallback-merge loop of `run_upgrade`: walk the fallback list,
appending an update only when its pair is not yet in the seen set. -/
def mergeGo (acc : List DependencyUpdate) (pairs : List (List Char × List Char)) :
    List DependencyUpdate → List DependencyUpdate
  | [] => acc
  | f :: rest =>
    if updatePair f ∈ pairs then mergeGo acc pairs rest
    else mergeGo (acc ++ [f]) (updatePair f :: pairs) rest

/-- The fallback merge of `run_upgrade` (mode `minor_patch`): seed the
seen set with the pairs of the primary updates, then walk the fallback
list. -/
def merge_fallback_updates (updates fallbacks : List DependencyUpdate) :
    List DependencyUpdate :=
  mergeGo updates (updates.map updatePair) fallbacks

/-- The value found under the fallback keys of a raw response entry:
either a (string-valued) dictionary or some non-dict value. -/
inductive FbSlot : Type where
  | fdict (fields : List (List Char × List Char))
  | fother
deriving DecidableEq

/-- A raw MCP response entry: string-valued fields plus the optional
fallback slot under either of its two key spellings
(`sameMajorStableFallback` / `same_major_stable_fallback`). -/
structure RawDep where
  fields : List (List Char × List Char)
  fallbackCamel : Option FbSlot
  fallbackSnake : Option FbSlot
deriving DecidableEq

/-- Python `dep.get(k)` on the string-valued fields. -/
def fieldGet (fs : List (List Char × List Char)) (k : List Char) :
    Option (List Char) :=
  (fs.find? (fun kv => kv.1 == k)).map (fun kv => kv.2)

/-- Nested `dep.get(k1, dep.get(k2, ... default))`: first present key
wins, otherwise the default. -/
def getChain (fs : List (List Char × List Char)) :
    List (List Char) → List Char → List Char
  | [], d => d
  | k :: ks, d =>
    match fieldGet fs k with
    | some v => v
    | none => getChain fs ks d

/-- `_parse_single_dependency`: resolve the field aliases, drop the entry
when no update is available or any resolved field is empty, parse the
combined coordinate when it contains a colon, and lower-case the
classification (defaulting to `unknown`). -/
def parse_single_dependency (dep : RawDep) : Option DependencyUpdate :=
  let current := getChain dep.fields
    ["currentVersion".toList, "current_version".toList, "current".toList, "version".toList] []
  let latest := getChain dep.fields
    ["latestVersion".toList, "latest_version".toList, "latest".toList, "recommendedVersion".toList] []
  let updType := getChain dep.fields
    ["updateType".toList, "update_type".toList, "type".toList, "upgradeType".toList]
    ("unknown".toList)
  if latest = [] ∨ current = latest then none
  else
    let coordinate := getChain dep.fields ["coordinate".toList, "dependency".toList] []
    let ga :=
      if ':' ∈ coordinate then
        let parts := splitOnChar ':' coordinate
        (parts.getD 0 [], if 1 < parts.length then parts.getD 1 [] else [])
      else
        (getChain dep.fields ["groupId".toList] [], getChain dep.fields ["artifactId".toList] [])
    if ga.1 = [] ∨ ga.2 = [] ∨ current = [] ∨ latest = [] then none
    else some ⟨ga.1, ga.2, current, latest,
               if updType ≠ [] then pyLower updType else "unknown".toList⟩

/-- `dep.get("sameMajorStableFallback", dep.get("same_major_stable_fallback"))`. -/
def fallbackSlot (dep : RawDep) : Option FbSlot :=
  match dep.fallbackCamel with
  | some s => some s
  | none => dep.fallbackSnake

/-- `_extract_same_major_fallback_update`: requires a dict-valued
fallback slot, a parsed primary entry classified `major`, a fallback
recommended version that is non-empty after stripping, and a fallback
classification that is `minor` or `patch` after stripping and
lower-casing. -/
def extract_same_major_fallback_update (dep : RawDep) : Option DependencyUpdate :=
  match fallbackSlot dep with
  | some (FbSlot.fdict fb) =>
    match parse_single_dependency dep with
    | none => none
    | some base =>
      if base.update_type ≠ "major".toList then none
      else
        let latest := getChain fb ["latestVersion".toList, "latest_version".toList] []
        if pyStrip latest = [] then none
        else
          let ntype := pyLower (pyStrip (getChain fb ["updateType".toList, "update_type".toList] []))
          if ntype = "minor".toList ∨ ntype = "patch".toList then
            some ⟨base.group_id, base.artifact_id, base.current_version, pyStrip latest, ntype⟩
          else none
  | _ => none

/-- The match decomposition of a document under the property pattern. -/
def propChunks (q s : List Char) : List (List Char × List Char × List Char) :=
  (matchListF (matchProp q) s.length s).1

/-- The text after the last property-pattern match. -/
def propTail (q s : List Char) : List Char :=
  (matchListF (matchProp q) s.length s).2

/-- The match decomposition of a document under the dependency-block
pattern. -/
def depChunks (g a s : List Char) : List (List Char × List Char × List Char) :=
  (matchListF (matchDep g a) s.length s).1

/-- The text after the last dependency-block match. -/
def depTail (g a s : List Char) : List Char :=
  (matchListF (matchDep g a) s.length s).2

/-- The match decomposition of a document under the parent-block
pattern. -/
def parentChunks (s : List Char) : List (List Char × List Char × List Char) :=
  (matchListF matchParent s.length s).1

/-- The text after the last parent-block match. -/
def parentTail (s : List Char) : List Char :=
  (matchListF matchParent s.length s).2

/-- A properties block holding `a.version = 1.0` (example tree). -/
def propsBlockA : XmlElem :=
  .mk ("properties".toList) none
    (.cons (.mk ("a.version".toList) (some ("1.0".toList)) .nil) .nil)

/-- A properties block holding `b.version = 2.0` (example tree). -/
def propsBlockB : XmlElem :=
  .mk ("properties".toList) none
    (.cons (.mk ("b.version".toList) (some ("2.0".toList)) .nil) .nil)

/-- A document with two properties blocks. -/
def twoPropsRoot : XmlElem :=
  .mk ("project".toList) none (.cons propsBlockA (.cons propsBlockB .nil))

/-- A document with no properties block. -/
def noPropsRoot : XmlElem :=
  .mk ("project".toList) none
    (.cons (.mk ("dependencies".toList) none .nil) .nil)

/-- A dependency element whose version is the `jackson.version`
placeholder. -/
def placeholderDep : XmlElem :=
  .mk ("dependency".toList) none
    (.cons (.mk ("groupId".toList) (some ("g".toList)) .nil)
      (.cons (.mk ("artifactId".toList) (some ("a".toList)) .nil)
        (.cons (.mk ("version".toList) (some ("$\x7bjackson.version\x7d".toList)) .nil)
          .nil)))

/-- A document whose `jackson.version` property has whitespace-only text,
so the built table maps it to the empty string. -/
def emptyValueRoot : XmlElem :=
  .mk ("project".toList) none
    (.cons (.mk ("properties".toList) none
        (.cons (.mk ("jackson.version".toList) (some (" ".toList)) .nil) .nil))
      (.cons (.mk ("dependencies".toList) none (.cons placeholderDep .nil)) .nil))

/-- A document whose `jackson.version` property is `2.15.0`. -/
def resolvedValueRoot : XmlElem :=
  .mk ("project".toList) none
    (.cons (.mk ("properties".toList) none
        (.cons (.mk ("jackson.version".toList) (some ("2.15.0".toList)) .nil) .nil))
      (.cons (.mk ("dependencies".toList) none (.cons placeholderDep .nil)) .nil))

/-- A dependency element whose version text starts with the placeholder
opener but never closes it. -/
def malformedDep : XmlElem :=
  .mk ("dependency".toList) none
    (.cons (.mk ("groupId".toList) (some ("g".toList)) .nil)
      (.cons (.mk ("artifactId".toList) (some ("a".toList)) .nil)
        (.cons (.mk ("version".toList) (some ("$\x7bjackson.version".toList)) .nil)
          .nil)))

/-- A document containing the malformed-placeholder dependency. -/
def malformedRoot : XmlElem :=
  .mk ("project".toList) none
    (.cons (.mk ("dependencies".toList) none (.cons malformedDep .nil)) .nil)

/-- A raw response entry: primary `major` update for `g:a` with a
same-major fallback whose classification carries stray case and
whitespace. -/
def paddedFallbackEntry : RawDep :=
  ⟨[("coordinate".toList, "g:a".toList),
    ("currentVersion".toList, "1.0".toList),
    ("latestVersion".toList, "2.0".toList),
    ("updateType".toList, "MAJOR".toList)],
   some (FbSlot.fdict
     [("latestVersion".toList, "1.5".toList),
      ("updateType".toList, " MINOR ".toList)]),
   none⟩

/-- A raw response entry with a clean `patch`-classified fallback. -/
def cleanFallbackEntry : RawDep :=
  ⟨[("coordinate".toList, "g:a".toList),
    ("currentVersion".toList, "1.0".toList),
    ("latestVersion".toList, "2.0".toList),
    ("updateType".toList, "major".toList)],
   none,
   some (FbSlot.fdict
     [("latest_version".toList, "1.2".toList),
      ("update_type".toList, "patch".toList)])⟩

theorem stripLead_eq_some {p s r : List Char} :
    stripLead p s = some r ↔ s = p ++ r := by
  induction p generalizing s with
  | nil => simp [stripLead]
  | cons x xs ih =>
    cases s with
    | nil => simp [stripLead]
    | cons c cs =>
      by_cases hx : x = c
      · subst hx
        simp [stripLead, ih]
      · simp [stripLead, hx, Ne.symm hx]

theorem leadsWith_iff {p s : List Char} :
    leadsWith p s = true ↔ ∃ r, s = p ++ r := by
  simp only [leadsWith, Option.isSome_iff_exists]
  constructor
  · rintro ⟨r, hr⟩
    exact ⟨r, stripLead_eq_some.mp hr⟩
  · rintro ⟨r, hr⟩
    exact ⟨r, stripLead_eq_some.mpr hr⟩

theorem occursIn_of_leadsWith {pat s : List Char} (h : leadsWith pat s = true) :
    occursIn pat s = true := by
  cases s with
  | nil => simpa [occursIn] using h
  | cons c cs => simp [occursIn, h]

theorem occursIn_tail {pat : List Char} {c : Char} {s : List Char}
    (h : occursIn pat (c :: s) = false) : occursIn pat s = false := by
  simp only [occursIn, Bool.or_eq_false_iff] at h
  exact h.2

theorem splitTD (f : Char → Bool) {x y : List Char} (h : List.dropWhile f x = y) :
    x = List.takeWhile f x ++ y := by
  rw [← h]
  exact (List.takeWhile_append_dropWhile f x).symm

theorem matchProp_split {p s g1 t rest : List Char}
    (h : matchProp p s = some (g1, t, rest)) :
    g1 = openTag p ∧ s = openTag p ++ (t ++ (closeTag p ++ rest))
    ∧ t ≠ [] ∧ ∀ c ∈ t, c ≠ '<' := by
  unfold matchProp at h
  cases h1 : stripLead (openTag p) s with
  | none => rw [h1] at h; simp at h
  | some s1 =>
    rw [h1] at h
    simp only at h
    by_cases ht : List.takeWhile (fun c => decide (c ≠ '<')) s1 = []
    · rw [if_pos ht] at h
      simp at h
    · rw [if_neg ht] at h
      cases h2 : stripLead (closeTag p) (List.dropWhile (fun c => decide (c ≠ '<')) s1) with
      | none => rw [h2] at h; simp at h
      | some s3 =>
        rw [h2] at h
        simp only [Option.some.injEq, Prod.mk.injEq] at h
        obtain ⟨hg, hT, hr⟩ := h
        have e1 := stripLead_eq_some.mp h1
        have d1 : s1 = List.takeWhile (fun c => decide (c ≠ '<')) s1 ++ (closeTag p ++ s3) :=
          splitTD _ (stripLead_eq_some.mp h2)
        refine ⟨hg.symm, ?_, ?_, ?_⟩
        · calc s = openTag p ++ s1 := e1
            _ = openTag p ++ (List.takeWhile (fun c => decide (c ≠ '<')) s1 ++ (closeTag p ++ s3)) :=
              congrArg (fun x => openTag p ++ x) d1
            _ = openTag p ++ (t ++ (closeTag p ++ rest)) := by rw [hT, hr]
        · rw [← hT]; exact ht
        · intro c hc
          rw [← hT] at hc
          have := List.mem_takeWhile_imp hc
          simpa using this

theorem matchProp_shrink {p s g1 t rest : List Char}
    (h : matchProp p s = some (g1, t, rest)) : rest.length < s.length := by
  obtain ⟨-, hs, -, -⟩ := matchProp_split h
  rw [hs]
  simp [openTag, closeTag]
  omega

theorem matchDep_split {g a s g1 t rest : List Char}
    (h : matchDep g a s = some (g1, t, rest)) :
    (∃ g0, g1 = g0 ++ "<version>".toList)
    ∧ s = g1 ++ (t ++ ("</version>".toList ++ rest))
    ∧ t ≠ [] ∧ ∀ c ∈ t, c ≠ '<' := by
  unfold matchDep at h
  cases h1 : stripLead ("<dependency>".toList) s with
  | none => rw [h1] at h; simp at h
  | some s1 =>
    rw [h1] at h
    simp only at h
    cases h2 : stripLead ("<groupId>".toList ++ g ++ "</groupId>".toList)
        (List.dropWhile pySpace s1) with
    | none => rw [h2] at h; simp at h
    | some s3 =>
      rw [h2] at h
      simp only at h
      cases h3 : stripLead ("<artifactId>".toList ++ a ++ "</artifactId>".toList)
          (List.dropWhile pySpace s3) with
      | none => rw [h3] at h; simp at h
      | some s5 =>
        rw [h3] at h
        simp only at h
        cases h4 : stripLead ("<version>".toList) (List.dropWhile pySpace s5) with
        | none => rw [h4] at h; simp at h
        | some s7 =>
          rw [h4] at h
          simp only at h
          by_cases ht : List.takeWhile (fun c => decide (c ≠ '<')) s7 = []
          · rw [if_pos ht] at h
            simp at h
          · rw [if_neg ht] at h
            cases h5 : stripLead ("</version>".toList)
                (List.dropWhile (fun c => decide (c ≠ '<')) s7) with
            | none => rw [h5] at h; simp at h
            | some s9 =>
              rw [h5] at h
              simp only [Option.some.injEq, Prod.mk.injEq] at h
              obtain ⟨hg, hT, hr⟩ := h
              have e1 := stripLead_eq_some.mp h1
              have d1 : s1 = List.takeWhile pySpace s1
                  ++ (("<groupId>".toList ++ g ++ "</groupId>".toList) ++ s3) :=
                splitTD _ (stripLead_eq_some.mp h2)
              have d2 : s3 = List.takeWhile pySpace s3
                  ++ (("<artifactId>".toList ++ a ++ "</artifactId>".toList) ++ s5) :=
                splitTD _ (stripLead_eq_some.mp h3)
              have d3 : s5 = List.takeWhile pySpace s5 ++ ("<version>".toList ++ s7) :=
                splitTD _ (stripLead_eq_some.mp h4)
              have d4 : s7 = List.takeWhile (fun c => decide (c ≠ '<')) s7
                  ++ ("</version>".toList ++ s9) :=
                splitTD _ (stripLead_eq_some.mp h5)
              refine ⟨⟨_, hg.symm⟩, ?_, ?_, ?_⟩
              · calc s = "<dependency>".toList ++ s1 := e1
                  _ = "<dependency>".toList ++ (List.takeWhile pySpace s1
                      ++ (("<groupId>".toList ++ g ++ "</groupId>".toList) ++ s3)) :=
                    congrArg (fun x => "<dependency>".toList ++ x) d1
                  _ = "<dependency>".toList ++ (List.takeWhile pySpace s1
                      ++ (("<groupId>".toList ++ g ++ "</groupId>".toList)
                        ++ (List.takeWhile pySpace s3
                          ++ (("<artifactId>".toList ++ a ++ "</artifactId>".toList) ++ s5)))) :=
                    congrArg (fun x => "<dependency>".toList ++ (List.takeWhile pySpace s1
                      ++ (("<groupId>".toList ++ g ++ "</groupId>".toList) ++ x))) d2
                  _ = "<dependency>".toList ++ (List.takeWhile pySpace s1
                      ++ (("<groupId>".toList ++ g ++ "</groupId>".toList)
                        ++ (List.takeWhile pySpace s3
                          ++ (("<artifactId>".toList ++ a ++ "</artifactId>".toList)
                            ++ (List.takeWhile pySpace s5 ++ ("<version>".toList ++ s7)))))) :=
                    congrArg (fun x => "<dependency>".toList ++ (List.takeWhile pySpace s1
                      ++ (("<groupId>".toList ++ g ++ "</groupId>".toList)
                        ++ (List.takeWhile pySpace s3
                          ++ (("<artifactId>".toList ++ a ++ "</artifactId>".toList) ++ x))))) d3
                  _ = "<dependency>".toList ++ (List.takeWhile pySpace s1
                      ++ (("<groupId>".toList ++ g ++ "</groupId>".toList)
                        ++ (List.takeWhile pySpace s3
                          ++ (("<artifactId>".toList ++ a ++ "</artifactId>".toList)
                            ++ (List.takeWhile pySpace s5
                              ++ ("<version>".toList
                                ++ (List.takeWhile (fun c => decide (c ≠ '<')) s7
                                  ++ ("</version>".toList ++ s9)))))))) :=
                    congrArg (fun x => "<dependency>".toList ++ (List.takeWhile pySpace s1
                      ++ (("<groupId>".toList ++ g ++ "</groupId>".toList)
                        ++ (List.takeWhile pySpace s3
                          ++ (("<artifactId>".toList ++ a ++ "</artifactId>".toList)
                            ++ (List.takeWhile pySpace s5 ++ ("<version>".toList ++ x))))))) d4
                  _ = g1 ++ (t ++ ("</version>".toList ++ rest)) := by
                    rw [← hg, ← hT, ← hr]
                    simp [List.append_assoc]
              · rw [← hT]; exact ht
              · intro c hc
                rw [← hT] at hc
                have := List.mem_takeWhile_imp hc
                simpa using this

theorem matchDep_shrink {g a s g1 t rest : List Char}
    (h : matchDep g a s = some (g1, t, rest)) : rest.length < s.length := by
  obtain ⟨-, hs, -, -⟩ := matchDep_split h
  rw [hs]
  simp
  omega

theorem matchParent_split {s g1 t rest : List Char}
    (h : matchParent s = some (g1, t, rest)) :
    s = g1 ++ (t ++ ("</version>".toList ++ rest)) := by
  unfold matchParent at h
  cases h1 : stripLead ("<parent>".toList) s with
  | none => rw [h1] at h; simp at h
  | some s1 =>
    rw [h1] at h
    simp only at h
    cases h2 : stripLead ("<groupId>".toList) (List.dropWhile pySpace s1) with
    | none => rw [h2] at h; simp at h
    | some s3 =>
      rw [h2] at h
      simp only at h
      by_cases hgt : List.takeWhile (fun c => decide (c ≠ '<')) s3 = []
      · rw [if_pos hgt] at h
        simp at h
      · rw [if_neg hgt] at h
        cases h3 : stripLead ("</groupId>".toList)
            (List.dropWhile (fun c => decide (c ≠ '<')) s3) with
        | none => rw [h3] at h; simp at h
        | some s5 =>
          rw [h3] at h
          simp only at h
          cases h4 : stripLead ("<artifactId>".toList) (List.dropWhile pySpace s5) with
          | none => rw [h4] at h; simp at h
          | some s7 =>
            rw [h4] at h
            simp only at h
            by_cases hat : List.takeWhile (fun c => decide (c ≠ '<')) s7 = []
            · rw [if_pos hat] at h
              simp at h
            · rw [if_neg hat] at h
              cases h5 : stripLead ("</artifactId>".toList)
                  (List.dropWhile (fun c => decide (c ≠ '<')) s7) with
              | none => rw [h5] at h; simp at h
              | some s9 =>
                rw [h5] at h
                simp only at h
                cases h6 : stripLead ("<version>".toList) (List.dropWhile pySpace s9) with
                | none => rw [h6] at h; simp at h
                | some s11 =>
                  rw [h6] at h
                  simp only at h
                  by_cases ht : List.takeWhile (fun c => decide (c ≠ '<')) s11 = []
                  · rw [if_pos ht] at h
                    simp at h
                  · rw [if_neg ht] at h
                    cases h7 : stripLead ("</version>".toList)
                        (List.dropWhile (fun c => decide (c ≠ '<')) s11) with
                    | none => rw [h7] at h; simp at h
                    | some s13 =>
                      rw [h7] at h
                      simp only [Option.some.injEq, Prod.mk.injEq] at h
                      obtain ⟨hg, hT, hr⟩ := h
                      have e1 := stripLead_eq_some.mp h1
                      have d1 : s1 = List.takeWhile pySpace s1 ++ ("<groupId>".toList ++ s3) :=
                        splitTD _ (stripLead_eq_some.mp h2)
                      have d2 : s3 = List.takeWhile (fun c => decide (c ≠ '<')) s3
                          ++ ("</groupId>".toList ++ s5) :=
                        splitTD _ (stripLead_eq_some.mp h3)
                      have d3 : s5 = List.takeWhile pySpace s5 ++ ("<artifactId>".toList ++ s7) :=
                        splitTD _ (stripLead_eq_some.mp h4)
                      have d4 : s7 = List.takeWhile (fun c => decide (c ≠ '<')) s7
                          ++ ("</artifactId>".toList ++ s9) :=
                        splitTD _ (stripLead_eq_some.mp h5)
                      have d5 : s9 = List.takeWhile pySpace s9 ++ ("<version>".toList ++ s11) :=
                        splitTD _ (stripLead_eq_some.mp h6)
                      have d6 : s11 = List.takeWhile (fun c => decide (c ≠ '<')) s11
                          ++ ("</version>".toList ++ s13) :=
                        splitTD _ (stripLead_eq_some.mp h7)
                      rw [d6] at d5
                      rw [d5] at d4
                      rw [d4] at d3
                      rw [d3] at d2
                      rw [d2] at d1
                      rw [d1] at e1
                      rw [e1, ← hg, ← hT, ← hr]
                      simp [List.append_assoc]

theorem matchParent_shrink {s g1 t rest : List Char}
    (h : matchParent s = some (g1, t, rest)) : rest.length < s.length := by
  have hs := matchParent_split h
  rw [hs]
  simp
  omega

theorem subnF_fuel {m : List Char → Option (List Char × List Char × List Char)}
    (hm : ∀ s g1 t rest, m s = some (g1, t, rest) → rest.length < s.length)
    (close v : List Char) :
    ∀ f₁ f₂ s, s.length ≤ f₁ → s.length ≤ f₂ →
      subnF m close v f₁ s = subnF m close v f₂ s := by
  intro f₁
  induction f₁ with
  | zero =>
    intro f₂ s h1 _
    have hs : s = [] := List.length_eq_zero.mp (Nat.le_zero.mp h1)
    subst hs
    cases f₂ <;> simp [subnF]
  | succ f ih =>
    intro f₂ s h1 h2
    cases s with
    | nil => cases f₂ <;> simp [subnF]
    | cons c cs =>
      cases f₂ with
      | zero => simp at h2
      | succ f₂' =>
        cases hm' : m (c :: cs) with
        | some r =>
          obtain ⟨g1, t, rest⟩ := r
          have hlt := hm _ _ _ _ hm'
          simp only [List.length_cons] at hlt h1 h2
          simp only [subnF, hm']
          rw [ih f₂' rest (by omega) (by omega)]
        | none =>
          simp only [List.length_cons] at h1 h2
          simp only [subnF, hm']
          rw [ih f₂' cs (by omega) (by omega)]

theorem matchListF_fuel {m : List Char → Option (List Char × List Char × List Char)}
    (hm : ∀ s g1 t rest, m s = some (g1, t, rest) → rest.length < s.length) :
    ∀ f₁ f₂ s, s.length ≤ f₁ → s.length ≤ f₂ →
      matchListF m f₁ s = matchListF m f₂ s := by
  intro f₁
  induction f₁ with
  | zero =>
    intro f₂ s h1 _
    have hs : s = [] := List.length_eq_zero.mp (Nat.le_zero.mp h1)
    subst hs
    cases f₂ <;> simp [matchListF]
  | succ f ih =>
    intro f₂ s h1 h2
    cases s with
    | nil => cases f₂ <;> simp [matchListF]
    | cons c cs =>
      cases f₂ with
      | zero => simp at h2
      | succ f₂' =>
        cases hm' : m (c :: cs) with
        | some r =>
          obtain ⟨g1, t, rest⟩ := r
          have hlt := hm _ _ _ _ hm'
          simp only [List.length_cons] at hlt h1 h2
          simp only [matchListF, hm']
          rw [ih f₂' rest (by omega) (by omega)]
        | none =>
          simp only [List.length_cons] at h1 h2
          simp only [matchListF, hm']
          rw [ih f₂' cs (by omega) (by omega)]

theorem matchListF_render {m : List Char → Option (List Char × List Char × List Char)}
    {close : List Char}
    (hm : ∀ s g1 t rest, m s = some (g1, t, rest) → rest.length < s.length)
    (hsplit : ∀ s g1 t rest, m s = some (g1, t, rest) →
      s = g1 ++ (t ++ (close ++ rest))) :
    ∀ f s, s.length ≤ f →
      renderOrig close (matchListF m f s).1 (matchListF m f s).2 = s := by
  intro f
  induction f with
  | zero =>
    intro s h1
    have hs : s = [] := List.length_eq_zero.mp (Nat.le_zero.mp h1)
    subst hs
    simp [matchListF, renderOrig]
  | succ f ih =>
    intro s h1
    cases s with
    | nil => simp [matchListF, renderOrig]
    | cons c cs =>
      cases hm' : m (c :: cs) with
      | some r =>
        obtain ⟨g1, t, rest⟩ := r
        have hlt := hm _ _ _ _ hm'
        simp only [List.length_cons] at hlt h1
        have hih := ih rest (by omega)
        simp only [matchListF, hm', renderOrig, List.nil_append]
        rw [hih, hsplit _ _ _ _ hm']
        simp [List.append_assoc]
      | none =>
        simp only [List.length_cons] at h1
        have hih := ih cs (by omega)
        simp only [matchListF, hm']
        cases hr : (matchListF m f cs).1 with
        | nil =>
          rw [hr] at hih
          simp only [renderOrig] at hih
          simp only [hr, renderOrig]
          rw [hih]
        | cons ch cs' =>
          obtain ⟨gap, g1, t⟩ := ch
          rw [hr] at hih
          simp only [renderOrig] at hih
          simp only [hr, renderOrig]
          simp only [List.cons_append]
          rw [hih]

theorem subnF_render {m : List Char → Option (List Char × List Char × List Char)}
    {close v : List Char}
    (hm : ∀ s g1 t rest, m s = some (g1, t, rest) → rest.length < s.length) :
    ∀ f s, s.length ≤ f →
      (subnF m close v f s).1
          = renderNew close v (matchListF m f s).1 (matchListF m f s).2
        ∧ (subnF m close v f s).2 = (matchListF m f s).1.length := by
  intro f
  induction f with
  | zero =>
    intro s h1
    have hs : s = [] := List.length_eq_zero.mp (Nat.le_zero.mp h1)
    subst hs
    simp [subnF, matchListF, renderNew]
  | succ f ih =>
    intro s h1
    cases s with
    | nil => simp [subnF, matchListF, renderNew]
    | cons c cs =>
      cases hm' : m (c :: cs) with
      | some r =>
        obtain ⟨g1, t, rest⟩ := r
        have hlt := hm _ _ _ _ hm'
        simp only [List.length_cons] at hlt h1
        obtain ⟨ih1, ih2⟩ := ih rest (by omega)
        simp only [subnF, matchListF, hm', renderNew, List.nil_append, List.length_cons]
        exact ⟨by rw [ih1], by rw [ih2]⟩
      | none =>
        simp only [List.length_cons] at h1
        obtain ⟨ih1, ih2⟩ := ih cs (by omega)
        simp only [subnF, matchListF, hm']
        cases hr : (matchListF m f cs).1 with
        | nil =>
          rw [hr] at ih1 ih2
          simp only [renderNew] at ih1
          simp only [List.length_nil] at ih2
          simp only [hr, renderNew, List.length_nil]
          exact ⟨by rw [ih1], by rw [ih2]⟩
        | cons ch cs' =>
          obtain ⟨gap, g1, t⟩ := ch
          rw [hr] at ih1 ih2
          simp only [renderNew, List.length_cons] at ih1 ih2
          simp only [hr, renderNew, List.length_cons, List.cons_append]
          constructor
          · rw [ih1]
          · rw [ih2]

theorem matchListF_chunks {m : List Char → Option (List Char × List Char × List Char)}
    {P : List Char → List Char → Prop}
    (hfact : ∀ s g1 t rest, m s = some (g1, t, rest) → P g1 t) :
    ∀ f s ch, ch ∈ (matchListF m f s).1 → P ch.2.1 ch.2.2 := by
  intro f
  induction f with
  | zero =>
    intro s ch hch
    cases s <;> simp [matchListF] at hch
  | succ f ih =>
    intro s ch hch
    cases s with
    | nil => simp [matchListF] at hch
    | cons c cs =>
      cases hm' : m (c :: cs) with
      | some r =>
        obtain ⟨g1, t, rest⟩ := r
        simp only [matchListF, hm', List.mem_cons] at hch
        rcases hch with h | h
        · subst h
          exact hfact _ _ _ _ hm'
        · exact ih rest ch h
      | none =>
        simp only [matchListF, hm'] at hch
        cases hr : (matchListF m f cs).1 with
        | nil =>
          rw [hr] at hch
          simp at hch
        | cons ch' cs' =>
          obtain ⟨gap, g1, t⟩ := ch'
          rw [hr] at hch
          simp only [List.mem_cons] at hch
          rcases hch with h | h
          · subst h
            have hmem : (gap, g1, t) ∈ (matchListF m f cs).1 := by
              rw [hr]; exact List.mem_cons_self _ _
            exact ih cs (gap, g1, t) hmem
          · have hmem : ch ∈ (matchListF m f cs).1 := by
              rw [hr]; exact List.mem_cons_of_mem _ h
            exact ih cs ch hmem

theorem renderNew_eq_renderOrig {close v : List Char} :
    ∀ (cs : List (List Char × List Char × List Char)) (tail : List Char),
      (∀ ch ∈ cs, ch.2.2 = v) →
      renderNew close v cs tail = renderOrig close cs tail := by
  intro cs
  induction cs with
  | nil => intro tail _; rfl
  | cons ch cs' ih =>
    intro tail hch
    obtain ⟨gap, g1, t⟩ := ch
    have h1 : t = v := hch (gap, g1, t) (List.mem_cons_self _ _)
    simp only [renderNew, renderOrig]
    rw [h1, ih tail (fun c hc => hch c (List.mem_cons_of_mem _ hc))]

theorem parsePlaceholder_eq_some {u p : List Char}
    (h : parsePlaceholder u = some p) :
    u = '$' :: '\x7b' :: (p ++ ['\x7d']) ∧ p ≠ [] ∧ '\x7d' ∉ p := by
  cases u with
  | nil => simp [parsePlaceholder] at h
  | cons c1 u' =>
    cases u' with
    | nil => simp [parsePlaceholder] at h
    | cons c2 rest =>
      unfold parsePlaceholder at h
      dsimp only at h
      by_cases h12 : c1 = '$' ∧ c2 = '\x7b'
      · rw [if_pos h12] at h
        cases hl : rest.getLast? with
        | none => rw [hl] at h; simp at h
        | some c3 =>
          rw [hl] at h
          simp only at h
          by_cases h3 : c3 = '\x7d'
          · rw [if_pos h3] at h
            by_cases hinner : rest.dropLast ≠ [] ∧ '\x7d' ∉ rest.dropLast
            · rw [if_pos hinner] at h
              simp only [Option.some.injEq] at h
              subst h
              have hne : rest ≠ [] := by
                intro hx
                rw [hx] at hl
                simp at hl
              have hrest : rest = rest.dropLast ++ [c3] := by
                have := List.getLast?_eq_getLast rest hne
                rw [this] at hl
                simp only [Option.some.injEq] at hl
                rw [← hl]
                exact (List.dropLast_append_getLast hne).symm
              refine ⟨?_, hinner.1, hinner.2⟩
              rw [h12.1, h12.2, ← h3, ← hrest]
            · rw [if_neg hinner] at h
              simp at h
          · rw [if_neg h3] at h
            simp at h
      · rw [if_neg h12] at h
        simp at h

theorem subn_prop_render (p v s : List Char) :
    (subn_prop p v s).1 = renderNew (closeTag p) v (propChunks p s) (propTail p s)
    ∧ (subn_prop p v s).2 = (propChunks p s).length
    ∧ s = renderOrig (closeTag p) (propChunks p s) (propTail p s) := by
  have hm : ∀ s g1 t rest, matchProp p s = some (g1, t, rest) → rest.length < s.length :=
    fun s g1 t rest h => matchProp_shrink h
  have hsplit : ∀ s g1 t rest, matchProp p s = some (g1, t, rest) →
      s = g1 ++ (t ++ (closeTag p ++ rest)) := by
    intro s g1 t rest h
    obtain ⟨hg, hs, -, -⟩ := matchProp_split h
    rw [hg]
    exact hs
  obtain ⟨h1, h2⟩ := subnF_render hm s.length s le_rfl
  exact ⟨h1, h2, (matchListF_render hm hsplit s.length s le_rfl).symm⟩

theorem subn_dep_render (g a v s : List Char) :
    (subn_dep g a v s).1
      = renderNew ("</version>".toList) v (depChunks g a s) (depTail g a s)
    ∧ (subn_dep g a v s).2 = (depChunks g a s).length
    ∧ s = renderOrig ("</version>".toList) (depChunks g a s) (depTail g a s) := by
  have hm : ∀ s g1 t rest, matchDep g a s = some (g1, t, rest) → rest.length < s.length :=
    fun s g1 t rest h => matchDep_shrink h
  have hsplit : ∀ s g1 t rest, matchDep g a s = some (g1, t, rest) →
      s = g1 ++ (t ++ ("</version>".toList ++ rest)) := by
    intro s g1 t rest h
    exact (matchDep_split h).2.1
  obtain ⟨h1, h2⟩ := subnF_render hm s.length s le_rfl
  exact ⟨h1, h2, (matchListF_render hm hsplit s.length s le_rfl).symm⟩

theorem subn_parent_render (v s : List Char) :
    (subn_parent v s).1
      = renderNew ("</version>".toList) v (parentChunks s) (parentTail s)
    ∧ (subn_parent v s).2 = (parentChunks s).length
    ∧ s = renderOrig ("</version>".toList) (parentChunks s) (parentTail s) := by
  have hm : ∀ s g1 t rest, matchParent s = some (g1, t, rest) → rest.length < s.length :=
    fun s g1 t rest h => matchParent_shrink h
  have hsplit : ∀ s g1 t rest, matchParent s = some (g1, t, rest) →
      s = g1 ++ (t ++ ("</version>".toList ++ rest)) :=
    fun s g1 t rest h => matchParent_split h
  obtain ⟨h1, h2⟩ := subnF_render hm s.length s le_rfl
  exact ⟨h1, h2, (matchListF_render hm hsplit s.length s le_rfl).symm⟩

theorem update_property_by_name_render (p v s : List Char) :
    (update_property_by_name p v s).2
      = renderNew (closeTag p) v (propChunks p s) (propTail p s)
    ∧ s = renderOrig (closeTag p) (propChunks p s) (propTail p s) := by
  obtain ⟨h1, h2, h3⟩ := subn_prop_render p v s
  unfold update_property_by_name
  by_cases hc : (subn_prop p v s).2 > 0
  · rw [if_pos hc]
    exact ⟨h1, h3⟩
  · rw [if_neg hc]
    have hz : (propChunks p s).length = 0 := by
      rw [← h2]; omega
    have hnil : propChunks p s = [] := List.length_eq_zero.mp hz
    rw [hnil] at h3 ⊢
    simp only [renderNew, renderOrig] at h3 ⊢
    exact ⟨h3, h3⟩

theorem update_property_by_name_false {p v s : List Char}
    (h : (update_property_by_name p v s).1 = false) :
    update_property_by_name p v s = (false, s) := by
  unfold update_property_by_name at h ⊢
  by_cases hc : (subn_prop p v s).2 > 0
  · rw [if_pos hc] at h
    simp at h
  · rw [if_neg hc]

theorem tryPropertyNames_out (v s : List Char) :
    ∀ names, names ≠ [] →
      ∃ q ∈ names, (tryPropertyNames v s names).2 = (update_property_by_name q v s).2 := by
  intro names
  induction names with
  | nil => intro h; exact absurd rfl h
  | cons n rest ih =>
    intro _
    simp only [tryPropertyNames]
    by_cases h : (update_property_by_name n v s).1
    · rw [if_pos h]
      exact ⟨n, List.mem_cons_self _ _, rfl⟩
    · rw [if_neg h]
      cases rest with
      | nil =>
        refine ⟨n, List.mem_cons_self _ _, ?_⟩
        simp only [tryPropertyNames]
        have := update_property_by_name_false (by simpa using h)
        rw [this]
      | cons n2 rest2 =>
        obtain ⟨q, hq, hout⟩ := ih (by simp)
        exact ⟨q, List.mem_cons_of_mem _ hq, hout⟩

theorem update_version_out (g a v s : List Char) :
    (∃ q, (q ∈ heuristicPropertyNames g a
        ∨ ∃ g1 t rest, searchDep g a s = some (g1, t, rest)
            ∧ parsePlaceholder (pyStrip t) = some q)
      ∧ (update_version g a v s).2 = (update_property_by_name q v s).2)
    ∨ (update_version g a v s).2 = (subn_dep g a v s).1 := by
  unfold update_version
  cases hs : searchDep g a s with
  | some r =>
    obtain ⟨g1, t, rest⟩ := r
    simp only
    cases hph : parsePlaceholder (pyStrip t) with
    | some p => exact Or.inl ⟨p, Or.inr ⟨g1, t, rest, rfl, hph⟩, rfl⟩
    | none =>
      simp only
      by_cases hc : (subn_dep g a v s).2 > 0
      · rw [if_pos hc]
        exact Or.inr rfl
      · rw [if_neg hc]
        obtain ⟨q, hq, hout⟩ := tryPropertyNames_out v s (heuristicPropertyNames g a) (by simp [heuristicPropertyNames])
        exact Or.inl ⟨q, Or.inl hq, hout⟩
  | none =>
    simp only
    obtain ⟨q, hq, hout⟩ := tryPropertyNames_out v s (heuristicPropertyNames g a) (by simp [heuristicPropertyNames])
    exact Or.inl ⟨q, Or.inl hq, hout⟩

theorem searchDep_split {g a s g1 t rest : List Char}
    (h : searchDep g a s = some (g1, t, rest)) :
    ∃ pre, s = pre ++ (g1 ++ (t ++ ("</version>".toList ++ rest)))
      ∧ (∃ g0, g1 = g0 ++ "<version>".toList) ∧ t ≠ [] ∧ ∀ c ∈ t, c ≠ '<' := by
  induction s with
  | nil => simp [searchDep] at h
  | cons c cs ih =>
    cases hm : matchDep g a (c :: cs) with
    | some r =>
      simp only [searchDep, hm, Option.some.injEq] at h
      subst h
      obtain ⟨hg0, hs, ht, hlt⟩ := matchDep_split hm
      exact ⟨[], by simpa using hs, hg0, ht, hlt⟩
    | none =>
      simp only [searchDep, hm] at h
      obtain ⟨pre, hs, hg0, ht, hlt⟩ := ih h
      exact ⟨c :: pre, by simp [hs], hg0, ht, hlt⟩

theorem subnF_prop_no_occur {p : List Char} (close v : List Char) :
    ∀ f s, occursIn (openTag p) s = false →
      subnF (matchProp p) close v f s = (s, 0) := by
  intro f
  induction f with
  | zero => intro s h; cases s <;> simp [subnF]
  | succ f ih =>
    intro s h
    cases s with
    | nil => simp [subnF]
    | cons c cs =>
      have hnone : matchProp p (c :: cs) = none := by
        cases hm : matchProp p (c :: cs) with
        | none => rfl
        | some r =>
          obtain ⟨g1, t, rest⟩ := r
          obtain ⟨-, hsp, -, -⟩ := matchProp_split hm
          have hl : leadsWith (openTag p) (c :: cs) = true :=
            leadsWith_iff.mpr ⟨_, hsp⟩
          rw [occursIn_of_leadsWith hl] at h
          exact Bool.noConfusion h
      simp only [subnF, hnone]
      rw [ih cs (occursIn_tail h)]

/-- C9: when the matched dependency block's version text is a property
placeholder whose tag occurs nowhere in the document, `update_version`
returns `False` and leaves the document unchanged — it neither attempts
the literal in-block replacement nor any heuristic property name. -/
theorem c9_missing_placeholder_property (g a v s p g1 t rest : List Char)
    (hsearch : searchDep g a s = some (g1, t, rest))
    (hph : parsePlaceholder (pyStrip t) = some p)
    (hocc : occursIn (openTag p) s = false) :
    update_version g a v s = (false, s) := by
  unfold update_version
  rw [hsearch]
  simp only [hph]
  have hsubn : subn_prop p v s = (s, 0) :=
    subnF_prop_no_occur (closeTag p) v s.length s hocc
  unfold update_property_by_name
  rw [hsubn]
  simp

/-- Witness for C9 at a concrete document: the dependency's version is
the placeholder for `foo.version`, no `foo.version` property element
exists, and a heuristic candidate (`a.version`) does exist — yet the
update reports `False` and leaves the text untouched. -/
theorem c9_missing_placeholder_property_witness :
    update_version ("org.x".toList) ("a".toList) ("9.9".toList)
        ("<dependency><groupId>org.x</groupId><artifactId>a</artifactId><version>$\x7bfoo.version\x7d</version></dependency><a.version>1.0</a.version>".toList)
      = (false,
        "<dependency><groupId>org.x</groupId><artifactId>a</artifactId><version>$\x7bfoo.version\x7d</version></dependency><a.version>1.0</a.version>".toList) :=
  c9_missing_placeholder_property "org.x".toList "a".toList "9.9".toList
    ("<dependency><groupId>org.x</groupId><artifactId>a</artifactId><version>$\x7bfoo.version\x7d</version></dependency><a.version>1.0</a.version>".toList)
    ("foo.version".toList)
    ("<dependency><groupId>org.x</groupId><artifactId>a</artifactId><version>".toList)
    ("$\x7bfoo.version\x7d".toList)
    ("</dependency><a.version>1.0</a.version>".toList)
    (by decide) (by decide) (by decide)

/-- C2 fails as stated: `re.subn` is called without a count, so every
matching occurrence is replaced, not only the first.  On a document with
two `a.version` property elements the update rewrites both, so the
output differs from the only-first-modified text the claim predicts. -/
theorem c2_counterexample :
    update_version ("g".toList) ("a".toList) ("2.0".toList)
        ("<a.version>1</a.version><a.version>1</a.version>".toList)
      = (true, "<a.version>2.0</a.version><a.version>2.0</a.version>".toList)
    ∧ ("<a.version>2.0</a.version><a.version>2.0</a.version>".toList : List Char)
      ≠ "<a.version>2.0</a.version><a.version>1</a.version>".toList := by
  constructor
  · decide
  · decide

/-- C2 amended: every patch operation replaces the value text of every
matching occurrence found by the left-to-right scan (not only the
first); the original document decomposes into gaps, group-1 texts, value
texts and closers, and the output is identical outside the replaced
value texts. -/
theorem c2_all_occurrences_frame (g a v s : List Char) :
    ((∃ q, (update_version g a v s).2
          = renderNew (closeTag q) v (propChunks q s) (propTail q s)
        ∧ s = renderOrig (closeTag q) (propChunks q s) (propTail q s))
     ∨ ((update_version g a v s).2
          = renderNew ("</version>".toList) v (depChunks g a s) (depTail g a s)
        ∧ s = renderOrig ("</version>".toList) (depChunks g a s) (depTail g a s)))
  ∧ ((update_parent_version v s).2
        = renderNew ("</version>".toList) v (parentChunks s) (parentTail s)
      ∧ s = renderOrig ("</version>".toList) (parentChunks s) (parentTail s)) := by
  constructor
  · rcases update_version_out g a v s with ⟨q, -, hq⟩ | hdep
    · left
      obtain ⟨h1, h2⟩ := update_property_by_name_render q v s
      exact ⟨q, hq.trans h1, h2⟩
    · right
      obtain ⟨h1, -, h3⟩ := subn_dep_render g a v s
      exact ⟨hdep.trans h1, h3⟩
  · obtain ⟨h1, h2, h3⟩ := subn_parent_render v s
    unfold update_parent_version
    by_cases hc : (subn_parent v s).2 > 0
    · rw [if_pos hc]
      exact ⟨h1, h3⟩
    · rw [if_neg hc]
      have hz : (parentChunks s).length = 0 := by rw [← h2]; omega
      have hnil : parentChunks s = [] := List.length_eq_zero.mp hz
      rw [hnil] at h3 ⊢
      simp only [renderNew, renderOrig] at h3 ⊢
      exact ⟨h3, h3⟩

/-- C3 fails as stated: in mode `minor_patch` an update classified
`unknown` is dropped from both returned lists; in particular it is not
placed in the manual-review (major) list. -/
theorem c3_counterexample :
    filter_updates_by_mode
        [⟨"g".toList, "a".toList, "1.0".toList, "2.0".toList, "unknown".toList⟩]
        ("minor_patch".toList)
      = ([], [])
    ∧ (⟨"g".toList, "a".toList, "1.0".toList, "2.0".toList, "unknown".toList⟩ : DependencyUpdate)
        ∉ (filter_updates_by_mode
            [⟨"g".toList, "a".toList, "1.0".toList, "2.0".toList, "unknown".toList⟩]
            ("minor_patch".toList)).2 := by
  constructor
  · decide
  · decide

/-- C3 amended: in mode `minor_patch`, the auto-apply list contains
exactly the updates classified `minor` or `patch` and the manual-review
list exactly those classified `major`; an `unknown` update is excluded
from both lists. -/
theorem c3_mode_split (updates : List DependencyUpdate) :
    (∀ u, u ∈ (filter_updates_by_mode updates ("minor_patch".toList)).1 ↔
        (u ∈ updates ∧ (u.update_type = "minor".toList ∨ u.update_type = "patch".toList)))
  ∧ (∀ u, u ∈ (filter_updates_by_mode updates ("minor_patch".toList)).2 ↔
        (u ∈ updates ∧ u.update_type = "major".toList)) := by
  unfold filter_updates_by_mode
  rw [if_pos rfl]
  constructor <;> intro u <;> simp [List.mem_filter]

set_option maxRecDepth 8000 in
/-- C8 fails as stated: with two dependency blocks for the same
coordinate, applying an update whose recommendation equals the version
already present in the targeted (first) block still rewrites the second
block, so the output differs from the input and `has_changes` is true. -/
theorem c8_counterexample :
    update_version ("g".toList) ("a".toList) ("1.0".toList)
        ("<dependency><groupId>g</groupId><artifactId>a</artifactId><version>1.0</version></dependency><dependency><groupId>g</groupId><artifactId>a</artifactId><version>2.0</version></dependency>".toList)
      = (true,
        "<dependency><groupId>g</groupId><artifactId>a</artifactId><version>1.0</version></dependency><dependency><groupId>g</groupId><artifactId>a</artifactId><version>1.0</version></dependency>".toList)
    ∧ has_changes
        ("<dependency><groupId>g</groupId><artifactId>a</artifactId><version>1.0</version></dependency><dependency><groupId>g</groupId><artifactId>a</artifactId><version>2.0</version></dependency>".toList)
        ("<dependency><groupId>g</groupId><artifactId>a</artifactId><version>1.0</version></dependency><dependency><groupId>g</groupId><artifactId>a</artifactId><version>1.0</version></dependency>".toList)
      = true := by
  constructor
  · decide
  · decide

/-- C8 amended: when the recommended version equals the value text at
every location matched by the targeted patterns (in particular when the
pattern matches exactly one location holding that value), applying the
update produces text identical to the input and `has_changes` reports
false. -/
theorem c8_idempotent_on_equal_values (g a v s : List Char)
    (hdep : ∀ ch ∈ depChunks g a s, ch.2.2 = v)
    (hheur : ∀ q ∈ heuristicPropertyNames g a, ∀ ch ∈ propChunks q s, ch.2.2 = v)
    (hph : ∀ q g1 t rest, searchDep g a s = some (g1, t, rest) →
        parsePlaceholder (pyStrip t) = some q → ∀ ch ∈ propChunks q s, ch.2.2 = v)
    (hpar : ∀ ch ∈ parentChunks s, ch.2.2 = v) :
    (update_version g a v s).2 = s
    ∧ has_changes s (update_version g a v s).2 = false
    ∧ (update_parent_version v s).2 = s
    ∧ has_changes s (update_parent_version v s).2 = false := by
  have hupbn : ∀ q, (∀ ch ∈ propChunks q s, ch.2.2 = v) →
      (update_property_by_name q v s).2 = s := by
    intro q hq
    obtain ⟨h1, h2⟩ := update_property_by_name_render q v s
    rw [h1, renderNew_eq_renderOrig _ _ hq, ← h2]
  have hver : (update_version g a v s).2 = s := by
    rcases update_version_out g a v s with ⟨q, hsrc, hq⟩ | hdep'
    · rcases hsrc with hmem | ⟨g1, t, rest, hse, hpl⟩
      · rw [hq]
        exact hupbn q (hheur q hmem)
      · rw [hq]
        exact hupbn q (hph q g1 t rest hse hpl)
    · rw [hdep']
      obtain ⟨h1, -, h3⟩ := subn_dep_render g a v s
      rw [h1, renderNew_eq_renderOrig _ _ hdep, ← h3]
  have hparent : (update_parent_version v s).2 = s := by
    obtain ⟨h1, h2, h3⟩ := subn_parent_render v s
    unfold update_parent_version
    by_cases hc : (subn_parent v s).2 > 0
    · rw [if_pos hc]
      simp only
      rw [h1, renderNew_eq_renderOrig _ _ hpar, ← h3]
    · rw [if_neg hc]
  refine ⟨hver, ?_, hparent, ?_⟩
  · rw [hver]
    simp [has_changes]
  · rw [hparent]
    simp [has_changes]

set_option maxRecDepth 8000 in
/-- Witness for the amended C8: a single dependency block already at the
recommended version, plus a parent block already at that version — the
document is returned byte-identical and `has_changes` is false. -/
theorem c8_idempotent_on_equal_values_witness :
    (update_version ("g".toList) ("a".toList) ("1.0".toList)
        ("<parent><groupId>p</groupId><artifactId>q</artifactId><version>1.0</version></parent><dependency><groupId>g</groupId><artifactId>a</artifactId><version>1.0</version></dependency>".toList)).2
      = "<parent><groupId>p</groupId><artifactId>q</artifactId><version>1.0</version></parent><dependency><groupId>g</groupId><artifactId>a</artifactId><version>1.0</version></dependency>".toList
    ∧ (update_parent_version ("1.0".toList)
        ("<parent><groupId>p</groupId><artifactId>q</artifactId><version>1.0</version></parent><dependency><groupId>g</groupId><artifactId>a</artifactId><version>1.0</version></dependency>".toList)).2
      = "<parent><groupId>p</groupId><artifactId>q</artifactId><version>1.0</version></parent><dependency><groupId>g</groupId><artifactId>a</artifactId><version>1.0</version></dependency>".toList := by
  have h := c8_idempotent_on_equal_values ("g".toList) ("a".toList) ("1.0".toList)
    ("<parent><groupId>p</groupId><artifactId>q</artifactId><version>1.0</version></parent><dependency><groupId>g</groupId><artifactId>a</artifactId><version>1.0</version></dependency>".toList)
    (by decide)
    (by
      intro q hq
      have he : heuristicPropertyNames ("g".toList) ("a".toList)
          = ["a.version".toList, "g.version".toList, "a-version".toList] := by decide
      rw [he] at hq
      simp only [List.mem_cons, List.not_mem_nil, or_false] at hq
      rcases hq with h | h | h <;> subst h <;> decide)
    (by
      intro q g1 t rest hse hpl
      have hconc : searchDep ("g".toList) ("a".toList)
          ("<parent><groupId>p</groupId><artifactId>q</artifactId><version>1.0</version></parent><dependency><groupId>g</groupId><artifactId>a</artifactId><version>1.0</version></dependency>".toList)
          = some ("<dependency><groupId>g</groupId><artifactId>a</artifactId><version>".toList,
              "1.0".toList, "</dependency>".toList) := by decide
      rw [hconc] at hse
      simp only [Option.some.injEq, Prod.mk.injEq] at hse
      obtain ⟨-, ht, -⟩ := hse
      rw [← ht] at hpl
      rw [show parsePlaceholder (pyStrip ("1.0".toList)) = none from by decide] at hpl
      exact absurd hpl (by simp))
    (by decide)
  exact ⟨h.1, h.2.2.1⟩

theorem find?_first {α : Type} (p : α → Bool) (pre : List α) (x : α) (post : List α)
    (hpre : ∀ y ∈ pre, p y = false) (hx : p x = true) :
    (pre ++ x :: post).find? p = some x := by
  induction pre with
  | nil => simpa using List.find?_cons_of_pos post hx
  | cons y ys ih =>
    have hy : p y = false := hpre y (List.mem_cons_self _ _)
    rw [List.cons_append, List.find?_cons_of_neg _ (by simp [hy])]
    exact ih (fun z hz => hpre z (List.mem_cons_of_mem _ hz))

/-- C5 fails as stated: with two properties blocks the table is built
from the first block, not left empty. -/
theorem c5_counterexample :
    extract_properties twoPropsRoot = [("a.version".toList, "1.0".toList)]
    ∧ extract_properties twoPropsRoot ≠ [] := by
  constructor
  · decide
  · decide

/-- C5 amended: a document with no properties block yields an empty
table (and no error); a document with one or more properties blocks
yields the table built from the first such block in document order —
later blocks are ignored, and no error is raised. -/
theorem c5_properties_first_block (root : XmlElem) :
    ((∀ e ∈ preorderL root.children, e.tag ≠ "properties".toList) →
      extract_properties root = [])
  ∧ (∀ pre pe post, preorderL root.children = pre ++ pe :: post →
      pe.tag = "properties".toList →
      (∀ e ∈ pre, e.tag ≠ "properties".toList) →
      extract_properties root = buildProps (forestToList pe.children)) := by
  constructor
  · intro h
    unfold extract_properties
    rw [List.find?_eq_none.mpr (fun e he => by
      simp only [beq_iff_eq]
      exact h e he)]
  · intro pre pe post hsplit htag hpre
    unfold extract_properties
    rw [hsplit, find?_first _ pre pe post
      (fun y hy => by
        simp only [beq_eq_false_iff_ne, ne_eq]
        exact hpre y hy)
      (by simp only [beq_iff_eq]; exact htag)]

/-- Witness for the amended C5 at two concrete documents: a document
with no properties block yields the empty table, and a document with two
properties blocks yields the table of the first one. -/
theorem c5_properties_first_block_witness :
    extract_properties noPropsRoot = []
    ∧ extract_properties twoPropsRoot = buildProps (forestToList propsBlockA.children) := by
  constructor
  · exact (c5_properties_first_block noPropsRoot).1 (by decide)
  · exact (c5_properties_first_block twoPropsRoot).2 []
      propsBlockA
      [.mk ("a.version".toList) (some ("1.0".toList)) .nil,
       propsBlockB,
       .mk ("b.version".toList) (some ("2.0".toList)) .nil]
      rfl rfl (by intro e he; simp at he)

theorem resolve_version_placeholder (p : List Char)
    (props : List (List Char × List Char)) :
    resolve_version ('$' :: '\x7b' :: (p ++ ['\x7d'])) props
      = match dictGet props p with
        | some w => if w ≠ [] then some w else none
        | none => none := by
  unfold resolve_version
  have h1 : leadsWith ("$\x7b".toList) ('$' :: '\x7b' :: (p ++ ['\x7d'])) = true := rfl
  have h2 : trailsWith ("\x7d".toList) ('$' :: '\x7b' :: (p ++ ['\x7d'])) = true := by
    unfold trailsWith leadsWith
    rw [show ('$' :: '\x7b' :: (p ++ ['\x7d'])).reverse
        = '\x7d' :: (p.reverse ++ ['\x7b', '$']) from by simp]
    rfl
  rw [if_neg (by rw [h1, h2]; simp)]
  rw [show (('$' :: '\x7b' :: (p ++ ['\x7d'])).drop 2).dropLast = p from by
    simp [List.dropLast_concat]]

/-- C4 fails as stated: the property `jackson.version` exists in the
table (with empty value, built from whitespace-only text), yet the
dependency referencing it is excluded from the resolved list. -/
theorem c4_counterexample :
    dictGet (extract_properties emptyValueRoot) ("jackson.version".toList) = some []
    ∧ parse_pom_with_properties emptyValueRoot = [] := by
  constructor
  · decide
  · decide

/-- C4 amended: for a dependency whose version text strips to the
placeholder for `p`, resolution looks `p` up in the table: a present and
non-empty value makes the dependency appear in the resolved list with
that value; an absent `p` — or one mapped to the empty string — makes
the element parse to nothing (excluded, no error). -/
theorem c4_property_resolution (root dep : XmlElem) (p : List Char)
    (gE aE vE : XmlElem) (vt : List Char)
    (hd : dep ∈ findAllDepElems root)
    (hg : childFind ("groupId".toList) dep = some gE)
    (ha : childFind ("artifactId".toList) dep = some aE)
    (hv : childFind ("version".toList) dep = some vE)
    (hvt : vE.text = some vt) (hvt0 : vt ≠ [])
    (hph : pyStrip vt = '$' :: '\x7b' :: (p ++ ['\x7d'])) :
    (∀ w, dictGet (extract_properties root) p = some w → w ≠ [] →
      parse_dependency_element (extract_properties root) dep
          = some ⟨elemIdText gE, elemIdText aE, w, "dependency".toList⟩
        ∧ (⟨elemIdText gE, elemIdText aE, w, "dependency".toList⟩ : ParsedDependency)
            ∈ parse_pom_with_properties root)
    ∧ ((dictGet (extract_properties root) p = none
          ∨ dictGet (extract_properties root) p = some []) →
        parse_dependency_element (extract_properties root) dep = none) := by
  have hsome : ∀ w, dictGet (extract_properties root) p = some w → w ≠ [] →
      parse_dependency_element (extract_properties root) dep
        = some ⟨elemIdText gE, elemIdText aE, w, "dependency".toList⟩ := by
    intro w hw hw0
    unfold parse_dependency_element
    rw [hg, ha, hv]
    simp only [hvt]
    rw [if_neg (by simpa using hvt0), hph, resolve_version_placeholder, hw]
    simp [hw0]
  have hnone : dictGet (extract_properties root) p = none
      ∨ dictGet (extract_properties root) p = some [] →
      parse_dependency_element (extract_properties root) dep = none := by
    intro hres
    unfold parse_dependency_element
    rw [hg, ha, hv]
    simp only [hvt]
    rw [if_neg (by simpa using hvt0), hph, resolve_version_placeholder]
    rcases hres with hw | hw <;> rw [hw] <;> simp
  constructor
  · intro w hw hw0
    refine ⟨hsome w hw hw0, ?_⟩
    unfold parse_pom_with_properties
    refine List.mem_append_right _ ?_
    exact List.mem_filterMap.mpr ⟨dep, hd, hsome w hw hw0⟩
  · exact hnone

/-- Witness for the amended C4: with `jackson.version = 2.15.0` in the
table, the placeholder dependency resolves to `2.15.0` and appears in
the resolved list. -/
theorem c4_property_resolution_witness :
    parse_dependency_element (extract_properties resolvedValueRoot) placeholderDep
        = some ⟨"g".toList, "a".toList, "2.15.0".toList, "dependency".toList⟩
    ∧ (⟨"g".toList, "a".toList, "2.15.0".toList, "dependency".toList⟩ : ParsedDependency)
        ∈ parse_pom_with_properties resolvedValueRoot := by
  have h := (c4_property_resolution resolvedValueRoot placeholderDep
    ("jackson.version".toList)
    (.mk ("groupId".toList) (some ("g".toList)) .nil)
    (.mk ("artifactId".toList) (some ("a".toList)) .nil)
    (.mk ("version".toList) (some ("$\x7bjackson.version\x7d".toList)) .nil)
    ("$\x7bjackson.version\x7d".toList)
    (by
      have : findAllDepElems resolvedValueRoot = [placeholderDep] := rfl
      rw [this]
      exact List.mem_singleton_self _)
    rfl rfl rfl rfl (by decide) (by decide)).1
    ("2.15.0".toList) (by decide) (by decide)
  exact h

/-- C10: a version text that opens a placeholder without closing it (or
closes one it never opened) is treated as a literal: the dependency
appears in the resolved list carrying the malformed text verbatim rather
than being excluded as unresolvable. -/
theorem c10_malformed_placeholder_literal (root dep : XmlElem)
    (gE aE vE : XmlElem) (vt : List Char)
    (hd : dep ∈ findAllDepElems root)
    (hg : childFind ("groupId".toList) dep = some gE)
    (ha : childFind ("artifactId".toList) dep = some aE)
    (hv : childFind ("version".toList) dep = some vE)
    (hvt : vE.text = some vt) (hvt0 : vt ≠ [])
    (hmal : (leadsWith ("$\x7b".toList) (pyStrip vt) = true
              ∧ trailsWith ("\x7d".toList) (pyStrip vt) = false)
          ∨ (leadsWith ("$\x7b".toList) (pyStrip vt) = false
              ∧ trailsWith ("\x7d".toList) (pyStrip vt) = true)) :
    parse_dependency_element (extract_properties root) dep
        = some ⟨elemIdText gE, elemIdText aE, pyStrip vt, "dependency".toList⟩
    ∧ (⟨elemIdText gE, elemIdText aE, pyStrip vt, "dependency".toList⟩ : ParsedDependency)
        ∈ parse_pom_with_properties root := by
  have hres : resolve_version (pyStrip vt) (extract_properties root)
      = some (pyStrip vt) := by
    unfold resolve_version
    have hcond : (!(leadsWith ("$\x7b".toList) (pyStrip vt)
        && trailsWith ("\x7d".toList) (pyStrip vt))) = true := by
      rcases hmal with ⟨h1, h2⟩ | ⟨h1, h2⟩ <;> rw [h1, h2] <;> simp
    rw [if_pos hcond]
  have hne : pyStrip vt ≠ [] := by
    rcases hmal with ⟨h1, -⟩ | ⟨-, h2⟩
    · obtain ⟨r, hr⟩ := leadsWith_iff.mp h1
      rw [hr]
      simp
    · unfold trailsWith at h2
      obtain ⟨r, hr⟩ := leadsWith_iff.mp h2
      intro hx
      rw [hx] at hr
      simp at hr
  have hparse : parse_dependency_element (extract_properties root) dep
      = some ⟨elemIdText gE, elemIdText aE, pyStrip vt, "dependency".toList⟩ := by
    unfold parse_dependency_element
    rw [hg, ha, hv]
    simp only [hvt]
    rw [if_neg (by simpa using hvt0), hres]
    simp [hne]
  refine ⟨hparse, ?_⟩
  unfold parse_pom_with_properties
  refine List.mem_append_right _ ?_
  exact List.mem_filterMap.mpr ⟨dep, hd, hparse⟩

/-- Witness for C10: the version text `dollar-brace jackson.version`
(no closing brace) is kept verbatim and the dependency is resolved. -/
theorem c10_malformed_placeholder_literal_witness :
    parse_dependency_element (extract_properties malformedRoot) malformedDep
        = some ⟨"g".toList, "a".toList, "$\x7bjackson.version".toList, "dependency".toList⟩
    ∧ (⟨"g".toList, "a".toList, "$\x7bjackson.version".toList, "dependency".toList⟩ : ParsedDependency)
        ∈ parse_pom_with_properties malformedRoot := by
  have h := c10_malformed_placeholder_literal malformedRoot malformedDep
    (.mk ("groupId".toList) (some ("g".toList)) .nil)
    (.mk ("artifactId".toList) (some ("a".toList)) .nil)
    (.mk ("version".toList) (some ("$\x7bjackson.version".toList)) .nil)
    ("$\x7bjackson.version".toList)
    (by
      have : findAllDepElems malformedRoot = [malformedDep] := rfl
      rw [this]
      exact List.mem_singleton_self _)
    rfl rfl rfl rfl (by decide) (Or.inl (by constructor <;> decide))
  exact h

theorem mergeGo_spec (fallbacks : List DependencyUpdate) :
    ∀ acc pairs, (∀ x, x ∈ pairs ↔ x ∈ acc.map updatePair) →
      ∃ extra, mergeGo acc pairs fallbacks = acc ++ extra
        ∧ (∀ f ∈ extra, f ∈ fallbacks)
        ∧ (∀ f ∈ extra, updatePair f ∉ acc.map updatePair)
        ∧ ((acc.map updatePair).Nodup → ((acc ++ extra).map updatePair).Nodup) := by
  induction fallbacks with
  | nil =>
    intro acc pairs hinv
    refine ⟨[], by simp [mergeGo], by simp, by simp, fun h => by simpa using h⟩
  | cons f rest ih =>
    intro acc pairs hinv
    by_cases hf : updatePair f ∈ pairs
    · simp only [mergeGo, if_pos hf]
      obtain ⟨extra, h1, h2, h3, h4⟩ := ih acc pairs hinv
      exact ⟨extra, h1, fun x hx => List.mem_cons_of_mem _ (h2 x hx), h3, h4⟩
    · simp only [mergeGo, if_neg hf]
      have hinv' : ∀ x, x ∈ (updatePair f :: pairs) ↔ x ∈ (acc ++ [f]).map updatePair := by
        intro x
        simp only [List.mem_cons, List.map_append, List.map_cons, List.map_nil,
          List.mem_append, List.mem_singleton, hinv x]
        tauto
      obtain ⟨extra, h1, h2, h3, h4⟩ := ih (acc ++ [f]) _ hinv'
      refine ⟨f :: extra, ?_, ?_, ?_, ?_⟩
      · rw [h1]
        simp
      · intro x hx
        rcases List.mem_cons.mp hx with hx' | hx'
        · rw [hx']
          exact List.mem_cons_self _ _
        · exact List.mem_cons_of_mem _ (h2 x hx')
      · intro x hx
        rcases List.mem_cons.mp hx with hx' | hx'
        · rw [hx']
          intro hmem
          exact hf ((hinv _).mpr hmem)
        · intro hmem
          exact h3 x hx' (by simp [hmem])
      · intro hnd
        have heq : acc ++ f :: extra = (acc ++ [f]) ++ extra := by simp
        rw [heq]
        apply h4
        rw [List.map_append]
        rw [List.nodup_append]
        refine ⟨hnd, by simp, ?_⟩
        intro x hx
        simp only [List.map_cons, List.map_nil, List.mem_singleton]
        intro hx'
        rw [hx'] at hx
        exact hf ((hinv _).mpr hx)

/-- C6 fails as stated: the merge only guards against re-adding a pair
through a fallback; duplicated primary updates survive, so a pair can be
present more than once in the working list after the merge. -/
theorem c6_counterexample :
    merge_fallback_updates
        [⟨"g".toList, "a".toList, "1.0".toList, "2.0".toList, "major".toList⟩,
         ⟨"g".toList, "a".toList, "1.0".toList, "2.0".toList, "major".toList⟩]
        [⟨"g".toList, "b".toList, "1.0".toList, "2.0".toList, "minor".toList⟩]
      = [⟨"g".toList, "a".toList, "1.0".toList, "2.0".toList, "major".toList⟩,
         ⟨"g".toList, "a".toList, "1.0".toList, "2.0".toList, "major".toList⟩,
         ⟨"g".toList, "b".toList, "1.0".toList, "2.0".toList, "minor".toList⟩]
    ∧ ¬ ((merge_fallback_updates
        [⟨"g".toList, "a".toList, "1.0".toList, "2.0".toList, "major".toList⟩,
         ⟨"g".toList, "a".toList, "1.0".toList, "2.0".toList, "major".toList⟩]
        [⟨"g".toList, "b".toList, "1.0".toList, "2.0".toList, "minor".toList⟩]).map updatePair).Nodup := by
  constructor
  · decide
  · decide

/-- C6 amended: the merge appends only fallbacks whose
(coordinate, recommended-version) pair occurs neither among the primary
updates nor among earlier appended fallbacks; consequently, whenever the
primary list is pair-duplicate-free, the merged list is too.  A fallback
whose pair already occurs among the primaries is never appended. -/
theorem c6_fallback_merge_dedup (updates fallbacks : List DependencyUpdate) :
    ∃ extra, merge_fallback_updates updates fallbacks = updates ++ extra
      ∧ (∀ f ∈ extra, f ∈ fallbacks)
      ∧ (∀ f ∈ extra, updatePair f ∉ updates.map updatePair)
      ∧ ((updates.map updatePair).Nodup →
          ((merge_fallback_updates updates fallbacks).map updatePair).Nodup) := by
  obtain ⟨extra, h1, h2, h3, h4⟩ :=
    mergeGo_spec fallbacks updates (updates.map updatePair) (fun x => Iff.rfl)
  refine ⟨extra, h1, h2, h3, fun hnd => ?_⟩
  unfold merge_fallback_updates
  rw [h1]
  exact h4 hnd

/-- C7 fails as stated: a fallback classification ` MINOR ` (stray case
and whitespace) is accepted, and the extracted classification is the
stripped lower-casing `minor`, which differs from the claim's
"classification lower-cased" (` minor `). -/
theorem c7_counterexample :
    extract_same_major_fallback_update paddedFallbackEntry
      = some ⟨"g".toList, "a".toList, "1.0".toList, "1.5".toList, "minor".toList⟩
    ∧ ("minor".toList : List Char) ≠ pyLower (" MINOR ".toList) := by
  constructor
  · decide
  · decide

/-- C7 amended: a same-major fallback is extracted only when the
fallback slot holds a dictionary, the primary entry parses with
classification `major`, the fallback recommended version is non-empty
after stripping, and the fallback classification is `minor` or `patch`
after stripping and lower-casing; the extracted update keeps the
primary's group, artifact and current version, carries the stripped
recommended version, and its classification is the fallback
classification stripped and lower-cased. -/
theorem c7_fallback_extraction (dep : RawDep) (u : DependencyUpdate)
    (h : extract_same_major_fallback_update dep = some u) :
    ∃ fb, fallbackSlot dep = some (FbSlot.fdict fb)
      ∧ ∃ base, parse_single_dependency dep = some base
        ∧ base.update_type = "major".toList
        ∧ u.group_id = base.group_id
        ∧ u.artifact_id = base.artifact_id
        ∧ u.current_version = base.current_version
        ∧ pyStrip (getChain fb ["latestVersion".toList, "latest_version".toList] []) ≠ []
        ∧ u.latest_version
            = pyStrip (getChain fb ["latestVersion".toList, "latest_version".toList] [])
        ∧ u.update_type
            = pyLower (pyStrip (getChain fb ["updateType".toList, "update_type".toList] []))
        ∧ (u.update_type = "minor".toList ∨ u.update_type = "patch".toList) := by
  unfold extract_same_major_fallback_update at h
  cases hslot : fallbackSlot dep with
  | none => rw [hslot] at h; simp at h
  | some slot =>
    cases slot with
    | fother => rw [hslot] at h; simp at h
    | fdict fb =>
      rw [hslot] at h
      simp only at h
      cases hbase : parse_single_dependency dep with
      | none => rw [hbase] at h; simp at h
      | some base =>
        rw [hbase] at h
        simp only at h
        by_cases hmj : base.update_type ≠ "major".toList
        · rw [if_pos hmj] at h
          simp at h
        · rw [if_neg hmj] at h
          push_neg at hmj
          by_cases hlat :
              pyStrip (getChain fb ["latestVersion".toList, "latest_version".toList] []) = []
          · rw [if_pos hlat] at h
            simp at h
          · rw [if_neg hlat] at h
            by_cases htyp :
                pyLower (pyStrip (getChain fb ["updateType".toList, "update_type".toList] []))
                    = "minor".toList
                ∨ pyLower (pyStrip (getChain fb ["updateType".toList, "update_type".toList] []))
                    = "patch".toList
            · rw [if_pos htyp] at h
              simp only [Option.some.injEq] at h
              subst h
              exact ⟨fb, rfl, base, rfl, hmj, rfl, rfl, rfl, hlat, rfl, rfl, htyp⟩
            · rw [if_neg htyp] at h
              simp at h

/-- Witness for the amended C7 at a concrete entry with a clean `patch`
fallback. -/
theorem c7_fallback_extraction_witness :
    ∃ fb, fallbackSlot cleanFallbackEntry = some (FbSlot.fdict fb)
      ∧ ∃ base, parse_single_dependency cleanFallbackEntry = some base
        ∧ base.update_type = "major".toList
        ∧ ("g".toList : List Char) = base.group_id
        ∧ ("a".toList : List Char) = base.artifact_id
        ∧ ("1.0".toList : List Char) = base.current_version
        ∧ pyStrip (getChain fb ["latestVersion".toList, "latest_version".toList] []) ≠ []
        ∧ ("1.2".toList : List Char)
            = pyStrip (getChain fb ["latestVersion".toList, "latest_version".toList] [])
        ∧ ("patch".toList : List Char)
            = pyLower (pyStrip (getChain fb ["updateType".toList, "update_type".toList] []))
        ∧ (("patch".toList : List Char) = "minor".toList
            ∨ ("patch".toList : List Char) = "patch".toList) :=
  c7_fallback_extraction cleanFallbackEntry
    ⟨"g".toList, "a".toList, "1.0".toList, "1.2".toList, "patch".toList⟩
    (by decide)

theorem markerSplit {m : Char} {xs ys zs ws : List Char}
    (h : xs ++ m :: ys = zs ++ m :: ws) (hx : m ∉ xs) (hz : m ∉ zs) :
    xs = zs ∧ ys = ws := by
  induction xs generalizing zs with
  | nil =>
    cases zs with
    | nil => simpa using h
    | cons c zs' =>
      simp only [List.nil_append, List.cons_append, List.cons.injEq] at h
      exact absurd (h.1 ▸ List.mem_cons_self c zs') (by simpa [h.1] using hz)
  | cons c xs' ih =>
    cases zs with
    | nil =>
      simp only [List.cons_append, List.nil_append, List.cons.injEq] at h
      exact absurd (h.1 ▸ List.mem_cons_self c xs') (by simpa [h.1] using hx)
    | cons d zs' =>
      simp only [List.cons_append, List.cons.injEq] at h
      obtain ⟨hcd, h'⟩ := h
      have hx' : m ∉ xs' := fun hm => hx (List.mem_cons_of_mem _ hm)
      have hz' : m ∉ zs' := fun hm => hz (List.mem_cons_of_mem _ hm)
      obtain ⟨h1, h2⟩ := ih h' hx' hz'
      exact ⟨by rw [hcd, h1], h2⟩

theorem sufSplit {M₁ M₂ u k : List Char}
    (h : u ++ '<' :: k = ('<' :: M₁) ++ '<' :: M₂)
    (h1 : '<' ∉ M₁) (h2 : '<' ∉ M₂) :
    (u = [] ∧ k = M₁ ++ '<' :: M₂) ∨ (u = '<' :: M₁ ∧ k = M₂) := by
  cases u with
  | nil =>
    left
    simpa using h
  | cons c u' =>
    right
    simp only [List.cons_append, List.cons.injEq] at h
    obtain ⟨hc, h'⟩ := h
    have hcount := congrArg (List.count '<') h'
    simp only [List.count_append, List.count_cons_self] at hcount
    have hM1 : M₁.count '<' = 0 := List.count_eq_zero.mpr h1
    have hM2 : M₂.count '<' = 0 := List.count_eq_zero.mpr h2
    have hu' : '<' ∉ u' := by
      apply List.count_eq_zero.mp
      omega
    obtain ⟨e1, e2⟩ := markerSplit h' hu' h1
    exact ⟨by rw [hc, e1], e2⟩

theorem matchProp_none_at_versionTag {p : List Char} (Z : List Char)
    (hgt : '>' ∉ p) (hnv : p ≠ "version".toList) :
    matchProp p ("<version>".toList ++ Z) = none := by
  have hstrip : stripLead (openTag p) ("<version>".toList ++ Z) = none := by
    cases hs : stripLead (openTag p) ("<version>".toList ++ Z) with
    | none => rfl
    | some r =>
      exfalso
      have heq := stripLead_eq_some.mp hs
      have hform : "<version>".toList ++ Z
          = '<' :: ("version".toList ++ ('>' :: Z)) := rfl
      have hform2 : openTag p ++ r = '<' :: (p ++ ('>' :: r)) := by
        simp [openTag, List.append_assoc]
      rw [hform, hform2] at heq
      have heq' : "version".toList ++ ('>' :: Z) = p ++ ('>' :: r) := by
        simpa using heq
      obtain ⟨hpv, -⟩ := markerSplit heq' (by decide) hgt
      exact hnv hpv.symm
  unfold matchProp
  rw [hstrip]

theorem subnF_transparent {p : List Char} (close v : List Char) :
    ∀ u C f, '<' ∉ u → (u ++ C).length ≤ f →
      subnF (matchProp p) close v f (u ++ C)
        = (u ++ (subnF (matchProp p) close v C.length C).1,
           (subnF (matchProp p) close v C.length C).2) := by
  intro u
  induction u with
  | nil =>
    intro C f _ hf
    simp only [List.nil_append] at hf ⊢
    rw [subnF_fuel (fun s g1 t rest h => matchProp_shrink h) close v f C.length C hf le_rfl]
  | cons c u' ih =>
    intro C f hu hf
    cases f with
    | zero => simp at hf
    | succ f' =>
      have hc : c ≠ '<' := fun h => hu (h ▸ List.mem_cons_self c u')
      have hsl : stripLead (openTag p) ((c :: u') ++ C) = none := by
        unfold openTag
        simp only [List.cons_append, stripLead]
        rw [if_neg (fun h => hc h.symm)]
      have hnone : matchProp p (c :: (u' ++ C)) = none := by
        unfold matchProp
        rw [show stripLead (openTag p) (c :: (u' ++ C)) = none from hsl]
      have hf' : (u' ++ C).length ≤ f' := by
        simp only [List.cons_append, List.length_cons] at hf
        omega
      have hgoal : (c :: u') ++ C = c :: (u' ++ C) := rfl
      rw [hgoal]
      simp only [subnF, hnone]
      rw [ih C f' (fun hm => hu (List.mem_cons_of_mem _ hm)) hf']
      simp

theorem matchProp_stay {p X E C g1 t' rest : List Char}
    (hp : '<' ∉ p) (hE : '<' ∉ E) (hX : X ≠ [])
    (h : matchProp p (X ++ (('<' :: 'v' :: E) ++ C)) = some (g1, t', rest)) :
    ∃ X', rest = X' ++ (('<' :: 'v' :: E) ++ C)
      ∧ X = openTag p ++ (t' ++ (closeTag p ++ X')) := by
  obtain ⟨hg, hs, ht0, htlt⟩ := matchProp_split h
  have ht' : '<' ∉ t' := fun hm => htlt '<' hm rfl
  have hs' : X ++ (('<' :: 'v' :: E) ++ C)
      = (openTag p ++ (t' ++ closeTag p)) ++ rest := by
    rw [hs]
    simp [List.append_assoc]
  rcases List.append_eq_append_iff.mp hs' with ⟨a, ha1, ha2⟩ | ⟨a, ha1, ha2⟩
  · cases a with
    | nil =>
      refine ⟨[], ?_, ?_⟩
      · simpa using ha2.symm
      · simpa [List.append_assoc] using ha1.symm
    | cons ch a'' =>
      exfalso
      have hW : ('<' :: 'v' :: E) ++ C = '<' :: (('v' :: E) ++ C) := rfl
      rw [hW] at ha2
      simp only [List.cons_append, List.cons.injEq] at ha2
      obtain ⟨hch, ha2'⟩ := ha2
      have hM : openTag p ++ (t' ++ closeTag p)
          = ('<' :: ((p ++ ['>']) ++ t')) ++ '<' :: ('/' :: (p ++ ['>'])) := by
        simp [openTag, closeTag, List.append_assoc]
      rw [hM, ← hch] at ha1
      have hM1 : '<' ∉ (p ++ ['>']) ++ t' := by
        simp only [List.mem_append, List.mem_singleton]
        rintro ((hm | hm) | hm)
        · exact hp hm
        · exact absurd hm (by decide)
        · exact ht' hm
      have hM2 : '<' ∉ '/' :: (p ++ ['>']) := by
        simp only [List.mem_cons, List.mem_append, List.mem_singleton]
        rintro (hm | hm | hm)
        · exact absurd hm (by decide)
        · exact hp hm
        · exact absurd hm (by decide)
      rcases sufSplit ha1.symm hM1 hM2 with ⟨hXnil, -⟩ | ⟨-, ha''⟩
      · exact hX hXnil
      · rw [ha''] at ha2'
        simp only [List.cons_append, List.cons.injEq] at ha2'
        exact absurd ha2'.1 (by decide)
  · refine ⟨a, ?_, ?_⟩
    · exact ha2
    · rw [ha1]
      simp [List.append_assoc]

theorem subnF_close_scan {p : List Char} (v Y : List Char) (f : Nat)
    (hgt : '>' ∉ p)
    (hf : ("</version>".toList ++ Y).length ≤ f) :
    ∃ R, (subnF (matchProp p) (closeTag p) v f ("</version>".toList ++ Y)).1
      = "</version>".toList ++ R := by
  cases f with
  | zero => simp at hf
  | succ f' =>
    have hform : "</version>".toList ++ Y = '<' :: ("/version>".toList ++ Y) := rfl
    cases hm : matchProp p ("</version>".toList ++ Y) with
    | some r =>
      obtain ⟨g1, t', rest⟩ := r
      obtain ⟨hg, hs, -, -⟩ := matchProp_split hm
      have h0 : '<' :: ("/version".toList ++ ('>' :: Y))
          = '<' :: (p ++ ('>' :: (t' ++ (closeTag p ++ rest)))) := by
        calc '<' :: ("/version".toList ++ ('>' :: Y))
            = "</version>".toList ++ Y := rfl
          _ = openTag p ++ (t' ++ (closeTag p ++ rest)) := hs
          _ = '<' :: (p ++ ('>' :: (t' ++ (closeTag p ++ rest)))) := by
              simp [openTag, List.append_assoc]
      have heq : "/version".toList ++ ('>' :: Y)
          = p ++ ('>' :: (t' ++ (closeTag p ++ rest))) := by
        simpa using h0
      obtain ⟨hpv, -⟩ := markerSplit heq (by decide) hgt
      have hg1 : g1 = "</version>".toList := by
        rw [hg, ← hpv]
        decide
      rw [hform] at hm ⊢
      simp only [subnF, hm, hg1]
      refine ⟨v ++ (closeTag p ++ (subnF (matchProp p) (closeTag p) v f' rest).1), ?_⟩
      simp only [List.append_assoc]
    | none =>
      rw [hform] at hm ⊢
      simp only [subnF, hm]
      have hf' : ("/version>".toList ++ Y).length ≤ f' := by
        have h10 : ("</version>".toList ++ Y).length = 10 + Y.length := by
          simp
          omega
        have h9 : ("/version>".toList ++ Y).length = 9 + Y.length := by
          simp
          omega
        rw [h10] at hf
        rw [h9]
        omega
      rw [subnF_transparent (closeTag p) v ("/version>".toList) Y f' (by decide) hf']
      exact ⟨_, rfl⟩

theorem subnF_protected {p : List Char} (v t Y : List Char)
    (hp : '<' ∉ p) (hgt : '>' ∉ p) (hnv : p ≠ "version".toList) (ht : '<' ∉ t) :
    ∀ f X, (X ++ ("<version>".toList ++ (t ++ ("</version>".toList ++ Y)))).length ≤ f →
      ∃ W R, (subnF (matchProp p) (closeTag p) v f
          (X ++ ("<version>".toList ++ (t ++ ("</version>".toList ++ Y))))).1
        = W ++ ("<version>".toList ++ (t ++ ("</version>".toList ++ R))) := by
  intro f
  induction f with
  | zero =>
    intro X hf
    exfalso
    simp only [List.length_append] at hf
    have h9 : ("<version>".toList).length = 9 := by decide
    omega
  | succ f ih =>
    intro X hf
    cases X with
    | nil =>
      simp only [List.nil_append] at hf ⊢
      have hm : matchProp p
          ("<version>".toList ++ (t ++ ("</version>".toList ++ Y))) = none :=
        matchProp_none_at_versionTag (t ++ ("</version>".toList ++ Y)) hgt hnv
      have hcons : "<version>".toList ++ (t ++ ("</version>".toList ++ Y))
          = '<' :: ("version>".toList ++ (t ++ ("</version>".toList ++ Y))) := rfl
      rw [hcons] at hm ⊢
      simp only [subnF, hm]
      have hassoc : "version>".toList ++ (t ++ ("</version>".toList ++ Y))
          = ("version>".toList ++ t) ++ ("</version>".toList ++ Y) := by
        simp [List.append_assoc]
      have hu : '<' ∉ "version>".toList ++ t := by
        simp only [List.mem_append]
        rintro (hm' | hm')
        · exact absurd hm' (by decide)
        · exact ht hm'
      have hflen : (("version>".toList ++ t) ++ ("</version>".toList ++ Y)).length ≤ f := by
        rw [← hassoc]
        rw [hcons] at hf
        simp only [List.length_cons] at hf
        omega
      rw [hassoc, subnF_transparent (closeTag p) v ("version>".toList ++ t)
        ("</version>".toList ++ Y) f hu hflen]
      obtain ⟨R, hR⟩ := subnF_close_scan v Y ("</version>".toList ++ Y).length hgt le_rfl
      rw [hR]
      refine ⟨[], R, ?_⟩
      simp [List.append_assoc]
    | cons c X' =>
      have hbody : "<version>".toList ++ (t ++ ("</version>".toList ++ Y))
          = ('<' :: 'v' :: ("ersion>".toList ++ t)) ++ ("</version>".toList ++ Y) := by
        simp [List.append_assoc]
      have hcons : (c :: X') ++ ("<version>".toList ++ (t ++ ("</version>".toList ++ Y)))
          = c :: (X' ++ ("<version>".toList ++ (t ++ ("</version>".toList ++ Y)))) := rfl
      cases hm : matchProp p
          ((c :: X') ++ ("<version>".toList ++ (t ++ ("</version>".toList ++ Y)))) with
      | none =>
        have hm' : matchProp p
            (c :: (X' ++ ("<version>".toList ++ (t ++ ("</version>".toList ++ Y))))) = none := hm
        rw [hcons] at hf ⊢
        simp only [subnF, hm']
        have hflen : (X' ++ ("<version>".toList ++ (t ++ ("</version>".toList ++ Y)))).length ≤ f := by
          simp only [List.length_cons] at hf
          omega
        obtain ⟨W', R, hW⟩ := ih X' hflen
        refine ⟨c :: W', R, ?_⟩
        rw [hW]
        simp
      | some r =>
        obtain ⟨g1, t', rest⟩ := r
        have hshr := matchProp_shrink hm
        have hmB : matchProp p
            ((c :: X') ++ (('<' :: 'v' :: ("ersion>".toList ++ t)) ++ ("</version>".toList ++ Y)))
            = some (g1, t', rest) := by
          rw [← hbody]
          exact hm
        have hE : '<' ∉ "ersion>".toList ++ t := by
          simp only [List.mem_append]
          rintro (hm' | hm')
          · exact absurd hm' (by decide)
          · exact ht hm'
        obtain ⟨X'', hrest, hXeq⟩ := matchProp_stay hp hE (by simp) hmB
        have hrest2 : rest
            = X'' ++ ("<version>".toList ++ (t ++ ("</version>".toList ++ Y))) := by
          rw [hrest, hbody]
        have hm' : matchProp p
            (c :: (X' ++ ("<version>".toList ++ (t ++ ("</version>".toList ++ Y)))))
            = some (g1, t', rest) := hm
        rw [hcons] at hf ⊢
        simp only [subnF, hm']
        have hflen : (X'' ++ ("<version>".toList ++ (t ++ ("</version>".toList ++ Y)))).length ≤ f := by
          rw [← hrest2]
          simp only [List.length_cons] at hf
          have hd : ((c :: X') ++ ("<version>".toList ++ (t ++ ("</version>".toList ++ Y)))).length
              = (X' ++ ("<version>".toList ++ (t ++ ("</version>".toList ++ Y)))).length + 1 := by
            simp
          omega
        obtain ⟨W'', R, hW⟩ := ih X'' hflen
        refine ⟨g1 ++ (v ++ (closeTag p ++ W'')), R, ?_⟩
        rw [hrest2, hW]
        simp [List.append_assoc]

theorem mem_dropWhile_mem {f : Char → Bool} {x : Char} :
    ∀ {s : List Char}, x ∈ s.dropWhile f → x ∈ s := by
  intro s
  induction s with
  | nil => simp [List.dropWhile]
  | cons c cs ih =>
    rw [List.dropWhile_cons]
    by_cases hc : f c
    · rw [if_pos hc]
      intro h
      exact List.mem_cons_of_mem _ (ih h)
    · rw [if_neg hc]
      exact id

theorem pyStrip_mem {x : Char} {s : List Char} (h : x ∈ pyStrip s) : x ∈ s := by
  unfold pyStrip at h
  rw [List.mem_reverse] at h
  have h1 := mem_dropWhile_mem h
  rw [List.mem_reverse] at h1
  exact mem_dropWhile_mem h1

set_option maxRecDepth 8000 in
/-- C1 fails as stated: when the dependency's version placeholder names
the property `version`, the redirected property pattern
`<version>...</version>` matches the dependency's own version element
and rewrites its text, so the placeholder is not byte-identical after
patching (it no longer occurs in the document at all). -/
theorem c1_counterexample :
    update_version ("g".toList) ("a".toList) ("9.9".toList)
        ("<dependency><groupId>g</groupId><artifactId>a</artifactId><version>$\x7bversion\x7d</version></dependency>".toList)
      = (true,
        "<dependency><groupId>g</groupId><artifactId>a</artifactId><version>9.9</version></dependency>".toList)
    ∧ occursIn ("$\x7bversion\x7d".toList)
        ("<dependency><groupId>g</groupId><artifactId>a</artifactId><version>9.9</version></dependency>".toList)
      = false := by
  constructor
  · decide
  · decide

/-- C1 amended: for an accepted update whose matched dependency block
declares its version as a property placeholder, the update is redirected
to the property update, only property value texts change (the document
decomposes into the property-pattern matches of the scan with only the
matched value texts replaced), and — provided the property name is
neither `version` nor contains `>` — the dependency block's version
element `<version>` ++ placeholder ++ `</version>` survives
byte-identically in the output. -/
theorem c1_property_redirect_preserves_version_text
    (g a v s p g1 t rest : List Char)
    (hsearch : searchDep g a s = some (g1, t, rest))
    (hph : parsePlaceholder (pyStrip t) = some p)
    (hnv : p ≠ "version".toList)
    (hgt : '>' ∉ p) :
    update_version g a v s = update_property_by_name p v s
    ∧ ((update_version g a v s).2
          = renderNew (closeTag p) v (propChunks p s) (propTail p s)
        ∧ s = renderOrig (closeTag p) (propChunks p s) (propTail p s))
    ∧ ∃ X Y W R,
        s = X ++ ("<version>".toList ++ (t ++ ("</version>".toList ++ Y)))
        ∧ (update_version g a v s).2
          = W ++ ("<version>".toList ++ (t ++ ("</version>".toList ++ R))) := by
  have hredir : update_version g a v s = update_property_by_name p v s := by
    unfold update_version
    rw [hsearch]
    simp only [hph]
  obtain ⟨hr1, hr2⟩ := update_property_by_name_render p v s
  refine ⟨hredir, ⟨by rw [hredir]; exact hr1, hr2⟩, ?_⟩
  obtain ⟨pre, hs, ⟨g0, hg0⟩, ht0, htlt⟩ := searchDep_split hsearch
  have hsX : s = (pre ++ g0)
      ++ ("<version>".toList ++ (t ++ ("</version>".toList ++ rest))) := by
    rw [hs, hg0]
    simp [List.append_assoc]
  obtain ⟨hstript, hpne, hpnb⟩ := parsePlaceholder_eq_some hph
  have htlt' : '<' ∉ t := fun hm => htlt '<' hm rfl
  have hplt : '<' ∉ p := by
    intro hm
    apply htlt'
    apply pyStrip_mem
    rw [hstript]
    simp [hm]
  by_cases hc : (subn_prop p v s).2 > 0
  · have hout : (update_version g a v s).2 = (subn_prop p v s).1 := by
      rw [hredir]
      unfold update_property_by_name
      rw [if_pos hc]
    obtain ⟨W, R, hWR⟩ := subnF_protected v t rest hplt hgt hnv htlt'
      s.length (pre ++ g0) (le_of_eq (by rw [← hsX]))
    refine ⟨pre ++ g0, rest, W, R, hsX, ?_⟩
    rw [hout]
    unfold subn_prop
    have harg : subnF (matchProp p) (closeTag p) v s.length s
        = subnF (matchProp p) (closeTag p) v s.length
          ((pre ++ g0) ++ ("<version>".toList ++ (t ++ ("</version>".toList ++ rest)))) := by
      rw [← hsX]
    rw [harg, hWR]
  · have hout : (update_version g a v s).2 = s := by
      rw [hredir]
      unfold update_property_by_name
      rw [if_neg hc]
    exact ⟨pre ++ g0, rest, pre ++ g0, rest, hsX, by rw [hout, hsX]⟩

set_option maxRecDepth 8000 in
/-- Witness for the amended C1 at a concrete document: the
`jackson.version`-backed dependency is redirected to the property, the
property value changes, and the dependency's placeholder version element
survives byte-identically. -/
theorem c1_property_redirect_preserves_version_text_witness :
    update_version ("g".toList) ("a".toList) ("2.0".toList)
        ("<properties><jackson.version>1.0</jackson.version></properties><dependency><groupId>g</groupId><artifactId>a</artifactId><version>$\x7bjackson.version\x7d</version></dependency>".toList)
      = update_property_by_name ("jackson.version".toList) ("2.0".toList)
        ("<properties><jackson.version>1.0</jackson.version></properties><dependency><groupId>g</groupId><artifactId>a</artifactId><version>$\x7bjackson.version\x7d</version></dependency>".toList)
    ∧ ∃ X Y W R,
        ("<properties><jackson.version>1.0</jackson.version></properties><dependency><groupId>g</groupId><artifactId>a</artifactId><version>$\x7bjackson.version\x7d</version></dependency>".toList : List Char)
          = X ++ ("<version>".toList ++ ("$\x7bjackson.version\x7d".toList ++ ("</version>".toList ++ Y)))
        ∧ (update_version ("g".toList) ("a".toList) ("2.0".toList)
            ("<properties><jackson.version>1.0</jackson.version></properties><dependency><groupId>g</groupId><artifactId>a</artifactId><version>$\x7bjackson.version\x7d</version></dependency>".toList)).2
          = W ++ ("<version>".toList ++ ("$\x7bjackson.version\x7d".toList ++ ("</version>".toList ++ R))) := by
  have h := c1_property_redirect_preserves_version_text
    ("g".toList) ("a".toList) ("2.0".toList)
    ("<properties><jackson.version>1.0</jackson.version></properties><dependency><groupId>g</groupId><artifactId>a</artifactId><version>$\x7bjackson.version\x7d</version></dependency>".toList)
    ("jackson.version".toList)
    ("<dependency><groupId>g</groupId><artifactId>a</artifactId><version>".toList)
    ("$\x7bjackson.version\x7d".toList)
    ("</dependency>".toList)
    (by decide) (by decide) (by decide) (by decide)
  exact ⟨h.1, h.2.2⟩

end MavenUpgrade
